import Mathlib

/-!
# godirutil: directory walkers

A shallow embedding of `dirutils.go` (package `dutil`): the two walkers
`ElicitFilesFrom0` (sequential, over `filepath.Walk`) and `ElicitFilesFrom`
(concurrent, `walkSub` goroutines), the predicate `stdIgnorer.IsDirIgnored`
and `FindFirstFileWithSuffix`.

The file system is a finite tree that does not change during a walk, and
`Lstat` succeeds on every entry a listing returns. Paths are Unix paths; the
root handed to a walker is the path after `filepath.Abs` and
`filepath.ToSlash`, which leave a clean absolute slash path as it is.

The library functions the walkers call (`strings.TrimPrefix`, `strings.Split`,
`path.Join`, `filepath.Walk`, `regexp`, channels and `sync.WaitGroup`) are
modelled after their documentation. The goroutines of `ElicitFilesFrom` are a
transition system: a state, and one step function per scheduler choice.
-/

namespace Dutil

/-! ## The file system -/

/-- Lexicographic order of character lists by code point. -/
def charsLess : List Char → List Char → Bool
  | _, [] => false
  | [], _ :: _ => true
  | a :: as, b :: bs =>
    if a.toNat < b.toNat then true
    else if a = b then charsLess as bs
    else false

/-- Go `a < b` on strings, the order `sort.Strings` uses: lexicographic by
bytes, which for UTF-8 is lexicographic by code point. -/
def stringLess (a b : String) : Bool :=
  charsLess a.data b.data

/-- A directory entry as `Lstat` reports it: anything that is not a directory
(regular file, symbolic link, device) is a `file`; a directory records whether
opening and listing it succeeds (`ok`) and its entries in directory order. -/
inductive Entry where
  | file (name : String)
  | dir (name : String) (ok : Bool) (entries : List Entry)
deriving Repr

namespace Entry

/-- The base name, `os.FileInfo.Name()`. -/
def name : Entry → String
  | file n => n
  | dir n _ _ => n

/-- The directory bit, `os.FileInfo.IsDir()`. -/
def IsDir : Entry → Bool
  | file _ => false
  | dir _ _ _ => true

/-- Insertion of an entry into a list ordered by name. -/
def insertByName (e : Entry) : List Entry → List Entry
  | [] => [e]
  | x :: xs => if stringLess e.name x.name then e :: x :: xs else x :: insertByName e xs

mutual
/-- The tree as `filepath.Walk` and `ioutil.ReadDir` see it: every listing
sorted by name (`readDirNames` sorts the names it read). -/
def sorted : Entry → Entry
  | file n => file n
  | dir n ok es => dir n ok (sortedList es)
/-- The listing of a directory sorted by name, each entry sorted within. -/
def sortedList : List Entry → List Entry
  | [] => []
  | e :: es => insertByName (sorted e) (sortedList es)
end

end Entry

/-! ## Strings and paths -/

/-- Go `strings.TrimPrefix(s, pre)`: `s` without the leading `pre`, or `s`
itself when `s` does not start with `pre`. -/
def TrimPrefix (s pre : String) : String :=
  if pre.data.isPrefixOf s.data then String.mk (s.data.drop pre.data.length) else s

/-- The pieces of a character list between the `/` characters; the empty list
has the single piece `[]`. -/
def splitSlash : List Char → List (List Char)
  | [] => [[]]
  | c :: cs =>
    if c = '/' then [] :: splitSlash cs
    else
      match splitSlash cs with
      | [] => [[c]]
      | seg :: segs => (c :: seg) :: segs

/-- Go `strings.Split(s, "/")`. It never returns an empty slice: for the empty
string it returns one empty string. -/
def Split (s : String) : List String :=
  (splitSlash s.data).map String.mk

/-- Go `path.Join(dir, name)` (and `filepath.Join` on Unix, followed by
`filepath.ToSlash`) as the walkers call it: for a clean path `dir` (the root
after `filepath.Abs`, or a path joined from it) and an entry name `name` (not
empty, without `/`, neither `.` nor `..`), where `Clean(dir + "/" + name)` is
`dir + "/" + name` except below the root directory `/`. For every other pair
of strings see `path.Join`. -/
def Join (dir name : String) : String :=
  if dir = "/" then dir ++ name else dir ++ "/" ++ name

/-! ## The predicates -/

/-- Interface `DirFilter`: `IsDirIgnored(name string) bool`. -/
abbrev DirFilter := String → Bool

/-- Interface `FileFilter`: `IsFileIncluded(name string) bool`. -/
abbrev FileFilter := String → Bool

/-- Method `(*stdIgnorer).IsDirIgnored`. A Go `switch` does not fall through:
the case `".svn"` has an empty body, so control leaves the `switch` and reaches
the final `return false`. -/
def stdIgnorer.IsDirIgnored (name : String) : Bool :=
  if name = ".svn" then
    false
  else if name = ".git" then
    true
  else
    false

/-- Variable `StdIgnorer`. -/
def StdIgnorer : DirFilter := stdIgnorer.IsDirIgnored

/-- Variable `NoIgnorer`: `(*noIgnorer).IsDirIgnored` returns false. -/
def NoIgnorer : DirFilter := fun _ => false

/-- Variable `AllFiles`: `(*allFiles).IsFileIncluded` returns true. -/
def AllFiles : FileFilter := fun _ => true

/-! ## `filepath.Walk` and `ElicitFilesFrom0` -/

/-- The non-nil errors a `WalkFunc` returns: the sentinel `filepath.SkipDir`, or
any other error. -/
inductive WalkError where
  | SkipDir
  | other
deriving Repr, DecidableEq

/-- The callback of `ElicitFilesFrom0` (lines 150-170) with the slice `rv` it
appends to as explicit state: `now` is the visited path, `isDir` is
`info.IsDir()`, `err` tells whether the error argument is non-nil. -/
def ElicitFilesFrom0.walkFn (dir : String) (ignorer : DirFilter) (fileFilter : FileFilter)
    (now : String) (isDir : Bool) (err : Bool) (rv : List String) :
    List String × Option WalkError :=
  if err then
    (rv, some WalkError.other)
  else if !isDir then
    if fileFilter now then (rv ++ [now], none) else (rv, none)
  else
    let raw := TrimPrefix now dir
    let raw := TrimPrefix raw "/"
    let rls := Split raw
    match rls.getLast? with
    | some last => if ignorer last then (rv, some WalkError.SkipDir) else (rv, none)
    | none => (rv, none)

mutual
/-- Go `filepath.walk(path, info, walkFn)` on a tree whose listings are sorted:
a file is handed to `walkFn`; a directory is listed, `walkFn` is called with
the listing error, and when either that error or the result of `walkFn` is
non-nil the result of `walkFn` is returned; otherwise the entries are walked.
(Before Go 1.16 `walkFn` was called once before the listing and again with its
error; for this callback the two differ only on an ignored directory that
cannot be listed.) -/
def filepath.walk (walkFn : String → Bool → Bool → List String → List String × Option WalkError)
    (path : String) : Entry → List String → List String × Option WalkError
  | Entry.file _, rv => walkFn path false false rv
  | Entry.dir _ ok es, rv =>
    match walkFn path true (!ok) rv with
    | (rv1, err1) =>
      if !ok || err1.isSome then (rv1, err1)
      else filepath.walkNames walkFn path es rv1
/-- The loop of `filepath.walk` over the names of a directory: an error from an
entry stops the loop, except `SkipDir` returned for a directory. -/
def filepath.walkNames (walkFn : String → Bool → Bool → List String → List String × Option WalkError)
    (path : String) : List Entry → List String → List String × Option WalkError
  | [], rv => (rv, none)
  | e :: es, rv =>
    match filepath.walk walkFn (Join path e.name) e rv with
    | (rv1, none) => filepath.walkNames walkFn path es rv1
    | (rv1, some WalkError.SkipDir) =>
      if e.IsDir then filepath.walkNames walkFn path es rv1 else (rv1, some WalkError.SkipDir)
    | (rv1, some WalkError.other) => (rv1, some WalkError.other)
end

/-- Function `ElicitFilesFrom0(dir, ignorer, fileFilter)` on the tree `root`
found at the absolute path `dir`: `filepath.Walk` with the callback above; the
error `Walk` returns is dropped and the slice `rv` is returned. -/
def ElicitFilesFrom0 (dir : String) (root : Entry) (ignorer : DirFilter)
    (fileFilter : FileFilter) : List String :=
  (filepath.walk (ElicitFilesFrom0.walkFn dir ignorer fileFilter) dir root.sorted []).1

/-! ## `ElicitFilesFrom` and `walkSub`: the goroutines as a transition system

The state right after line 203 (`go walkSub(dir, ...)`) is the initial state;
one step is one action of one goroutine, chosen by the scheduler. Blocking
operations (a send on a full channel, a receive on an empty one, `wg.Wait`)
are steps that are not enabled. -/

namespace ElicitFilesFrom

/-- One traversal unit (a call of `walkSub` and the goroutine it starts), by
program point. -/
inductive Walker where
  /-- Line 224: about to send on `semaphoreChan`. -/
  | acquire (dir : String) (node : Entry)
  /-- Lines 230-240: holds a slot, about to open and list `dir`. -/
  | listing (dir : String) (node : Entry)
  /-- Line 241: in the loop, `files` still to be looked at. -/
  | loop (dir : String) (files : List Entry)
  /-- Line 245: `wg.Add(1)` done for `child`, about to `go walkSub`. -/
  | spawn (dir : String) (child : Entry) (files : List Entry)
  /-- Line 227: the deferred receive from `semaphoreChan`. -/
  | release
  /-- Line 228: the deferred `wg.Done()`. -/
  | done
deriving Repr

/-- The goroutine of `ElicitFilesFrom` itself, by program point. -/
inductive Main where
  /-- Line 205: `wg.Wait()`. -/
  | waitWalk
  /-- Line 206: `close(readDone)`. -/
  | closeRead
  /-- Line 207: `wRead.Wait()`. -/
  | waitRead
  /-- Lines 210-218: the non-blocking drain. -/
  | drain
  /-- Line 219: `return rvs`. -/
  | returned
deriving Repr, DecidableEq

/-- The shared state of one call of `ElicitFilesFrom`. -/
structure State where
  /-- The traversal units that have been started and have not finished. -/
  units : List Walker
  /-- The number of elements in `semaphoreChan`. -/
  semaphoreChan : Nat
  /-- The counter of the wait group `wg`. -/
  wg : Int
  /-- The buffer of `fileReadCh`, oldest first. -/
  fileReadCh : List String
  /-- Whether `readDone` is closed. -/
  readDone : Bool
  /-- Whether the aggregator goroutine (lines 188-198) is still running. -/
  reading : Bool
  /-- The slice `rvs`. -/
  rvs : List String
  /-- Where the goroutine of `ElicitFilesFrom` is. -/
  main : Main
  /-- History: every path sent on `fileReadCh` so far, in order. -/
  sent : List String
deriving Repr

/-- The capacity of `fileReadCh` (line 182). -/
def fileReadChCap : Nat := 1024

/-- The choice of the scheduler: a step of the walker at an index, the
aggregator receiving a path, the aggregator taking the `readDone` case, or a
step of the goroutine of `ElicitFilesFrom`. -/
inductive Action where
  | walker (i : Nat)
  | receive
  | stop
  | main
deriving Repr, DecidableEq

/-- The state after line 203: the aggregator runs, `wg` counts the root unit,
which is about to ask for a slot. -/
def init (dir : String) (root : Entry) : State where
  units := [Walker.acquire dir root]
  semaphoreChan := 0
  wg := 1
  fileReadCh := []
  readDone := false
  reading := true
  rvs := []
  main := Main.waitWalk
  sent := []

/-- One step of a traversal unit, function `walkSub` (lines 223-254);
`concurrent` is the capacity of `semaphoreChan`. -/
def stepWalker (ignorer : DirFilter) (fileFilter : FileFilter) (concurrent : Nat)
    (s : State) (i : Nat) : Option State :=
  match s.units.get? i with
  | none => none
  | some (Walker.acquire dir node) =>
    if s.semaphoreChan < concurrent then
      some { s with
        units := s.units.set i (Walker.listing dir node)
        semaphoreChan := s.semaphoreChan + 1 }
    else none
  | some (Walker.listing dir node) =>
    match node with
    | Entry.dir _ true files => some { s with units := s.units.set i (Walker.loop dir files) }
    | _ => some { s with units := s.units.set i Walker.release }
  | some (Walker.loop _ []) => some { s with units := s.units.set i Walker.release }
  | some (Walker.loop dir (f :: files)) =>
    if f.IsDir then
      if !ignorer f.name then
        some { s with
          wg := s.wg + 1
          units := s.units.set i (Walker.spawn dir f files) }
      else some { s with units := s.units.set i (Walker.loop dir files) }
    else
      if fileFilter f.name then
        if s.fileReadCh.length < fileReadChCap then
          some { s with
            fileReadCh := s.fileReadCh ++ [Join dir f.name]
            sent := s.sent ++ [Join dir f.name]
            units := s.units.set i (Walker.loop dir files) }
        else none
      else some { s with units := s.units.set i (Walker.loop dir files) }
  | some (Walker.spawn dir child files) =>
    some { s with
      units := s.units.set i (Walker.loop dir files) ++ [Walker.acquire (Join dir child.name) child] }
  | some Walker.release =>
    if 0 < s.semaphoreChan then
      some { s with
        semaphoreChan := s.semaphoreChan - 1
        units := s.units.set i Walker.done }
    else none
  | some Walker.done =>
    some { s with
      wg := s.wg - 1
      units := s.units.eraseIdx i }

/-- One step of the system under the scheduler's choice; `none` when the chosen
goroutine is blocked or has finished. -/
def step (ignorer : DirFilter) (fileFilter : FileFilter) (concurrent : Nat)
    (s : State) : Action → Option State
  | Action.walker i => stepWalker ignorer fileFilter concurrent s i
  | Action.receive =>
    if s.reading then
      match s.fileReadCh with
      | fpath :: rest => some { s with fileReadCh := rest, rvs := s.rvs ++ [fpath] }
      | [] => none
    else none
  | Action.stop =>
    if s.reading && s.readDone then some { s with reading := false } else none
  | Action.main =>
    match s.main with
    | Main.waitWalk => if s.wg = 0 then some { s with main := Main.closeRead } else none
    | Main.closeRead => some { s with readDone := true, main := Main.waitRead }
    | Main.waitRead => if s.reading then none else some { s with main := Main.drain }
    | Main.drain =>
      match s.fileReadCh with
      | nuevo :: rest => some { s with fileReadCh := rest, rvs := s.rvs ++ [nuevo] }
      | [] => some { s with main := Main.returned }
    | Main.returned => none

/-- The state a schedule leads to, when each of its actions is enabled in turn. -/
def run (ignorer : DirFilter) (fileFilter : FileFilter) (concurrent : Nat) :
    State → List Action → Option State
  | s, [] => some s
  | s, a :: sched =>
    match step ignorer fileFilter concurrent s a with
    | some s1 => run ignorer fileFilter concurrent s1 sched
    | none => none

/-- The slots of `semaphoreChan` a traversal unit holds: one from its send on
the channel (line 224) until its receive from it (line 227). -/
def Walker.slots : Walker → Nat
  | Walker.acquire _ _ => 0
  | Walker.listing _ _ => 1
  | Walker.loop _ _ => 1
  | Walker.spawn _ _ _ => 1
  | Walker.release => 1
  | Walker.done => 0

/-- The units a walker accounts for in `wg`: itself, and the child it has done
`wg.Add(1)` for and not started yet. -/
def Walker.outstanding : Walker → Nat
  | Walker.spawn _ _ _ => 2
  | _ => 1

/-- The number of traversal units holding a slot. -/
def State.holders (s : State) : Nat :=
  (s.units.map Walker.slots).sum

/-- The number of dispatched traversal units that have not finished. -/
def State.outstanding (s : State) : Nat :=
  (s.units.map Walker.outstanding).sum

end ElicitFilesFrom

mutual
/-- The paths the traversal unit of a directory and the units below it send on
`fileChan`, in the order of a depth-first run of `walkSub`: nothing when the
directory cannot be opened and listed, else what the loop of lines 241-252
sends. -/
def walkSub.sends (ignorer : DirFilter) (fileFilter : FileFilter) (dir : String) :
    Entry → List String
  | Entry.file _ => []
  | Entry.dir _ ok files => if ok then walkSub.loopSends ignorer fileFilter dir files else []
/-- The paths the loop of lines 241-252 sends for the entries `files` of `dir`,
with those of the units it dispatches. -/
def walkSub.loopSends (ignorer : DirFilter) (fileFilter : FileFilter) (dir : String) :
    List Entry → List String
  | [] => []
  | f :: files =>
    (if f.IsDir then
      if !ignorer f.name then walkSub.sends ignorer fileFilter (Join dir f.name) f else []
    else
      if fileFilter f.name then [Join dir f.name] else [])
    ++ walkSub.loopSends ignorer fileFilter dir files
end

namespace ElicitFilesFrom

/-- The paths a traversal unit, with the units it will dispatch, has yet to
send. -/
def Walker.sends (ignorer : DirFilter) (fileFilter : FileFilter) : Walker → List String
  | Walker.acquire dir node => walkSub.sends ignorer fileFilter dir node
  | Walker.listing dir node => walkSub.sends ignorer fileFilter dir node
  | Walker.loop dir files => walkSub.loopSends ignorer fileFilter dir files
  | Walker.spawn dir child files =>
    walkSub.sends ignorer fileFilter (Join dir child.name) child
      ++ walkSub.loopSends ignorer fileFilter dir files
  | Walker.release => []
  | Walker.done => []

/-- The paths a traversal unit has yet to send, order forgotten. -/
def Walker.pending (ignorer : DirFilter) (fileFilter : FileFilter) (u : Walker) :
    Multiset String :=
  (u.sends ignorer fileFilter : Multiset String)

end ElicitFilesFrom

mutual
/-- A bound on the steps the traversal unit of an entry and the units below it
take, counting one more for every path they send (its later receive). -/
def Entry.cost : Entry → Nat
  | Entry.file _ => 4
  | Entry.dir _ _ files => 5 + Entry.costList files
/-- The bound for the entries of a directory. -/
def Entry.costList : List Entry → Nat
  | [] => 0
  | f :: files => 2 + Entry.cost f + Entry.costList files
end

namespace ElicitFilesFrom

/-- A bound on the steps left to a traversal unit and the units it will
dispatch. -/
def Walker.cost : Walker → Nat
  | Walker.acquire _ node => node.cost
  | Walker.listing _ node => node.cost - 1
  | Walker.loop _ files => 3 + Entry.costList files
  | Walker.spawn _ child files => 4 + child.cost + Entry.costList files
  | Walker.release => 2
  | Walker.done => 1

/-- The steps left to the goroutine of `ElicitFilesFrom`, the drain apart. -/
def Main.cost : Main → Nat
  | Main.waitWalk => 4
  | Main.closeRead => 3
  | Main.waitRead => 2
  | Main.drain => 1
  | Main.returned => 0

/-- A bound on the number of steps the system can still take. -/
def State.budget (s : State) : Nat :=
  (s.units.map Walker.cost).sum + s.fileReadCh.length + s.main.cost
    + (if s.reading then 1 else 0)

/-- The invariant of the transition system started on the tree `root` at `dir`. -/
structure Invariant (ignorer : DirFilter) (fileFilter : FileFilter) (concurrent : Nat)
    (dir : String) (root : Entry) (s : State) : Prop where
  /-- The elements of `semaphoreChan` are the slots held. -/
  slots : s.semaphoreChan = s.holders
  /-- The channel `semaphoreChan` holds at most its capacity. -/
  bound : s.semaphoreChan ≤ concurrent
  /-- The wait group counts the outstanding units. -/
  count : s.wg = (s.outstanding : Int)
  /-- Every path sent has been collected or is still buffered. -/
  collected : s.rvs ++ s.fileReadCh = s.sent
  /-- The paths sent and those yet to be sent are those of the whole walk. -/
  paths : (s.sent : Multiset String)
      + (s.units.map (Walker.pending ignorer fileFilter)).sum
    = (walkSub.sends ignorer fileFilter dir root : Multiset String)
  /-- The channel `readDone` is closed by line 206 only. -/
  closed : s.readDone = false ↔ (s.main = Main.waitWalk ∨ s.main = Main.closeRead)
  /-- The aggregator runs until `readDone` is closed. -/
  aggregator : s.readDone = false → s.reading = true
  /-- Past `wg.Wait()` no traversal unit is left. -/
  waited : s.main ≠ Main.waitWalk → s.units = []
  /-- Past `wRead.Wait()` the aggregator has returned. -/
  joined : s.main = Main.drain ∨ s.main = Main.returned → s.reading = false
  /-- The drain ends on an empty channel. -/
  drained : s.main = Main.returned → s.fileReadCh = []

end ElicitFilesFrom

/-- A file with base name `name` and path `p` lies below the directory `dir`
with entries `files`, and every directory between `dir` and the file can be
listed and is not ignored. -/
inductive Visible (ignorer : DirFilter) : String → List Entry → String → String → Prop where
  | file {dir : String} {files : List Entry} {name : String} :
      Entry.file name ∈ files → Visible ignorer dir files name (Join dir name)
  | dir {dir : String} {files : List Entry} {sub : String} {below : List Entry}
      {name p : String} :
      Entry.dir sub true below ∈ files → ignorer sub = false →
      Visible ignorer (Join dir sub) below name p → Visible ignorer dir files name p


/-- Relation "`ElicitFilesFrom(dir, ignorer, fileFilter)` can return `rvs`" on the
tree `root` at `dir`: some schedule leads from the initial state to line 219
with the slice `rvs`. The package variable `concurrent` (line 17, the result of
`runtime.GOMAXPROCS`, at least one) is a parameter. -/
def ElicitFilesFrom (dir : String) (root : Entry) (ignorer : DirFilter)
    (fileFilter : FileFilter) (concurrent : Nat) (rvs : List String) : Prop :=
  ∃ sched s, ElicitFilesFrom.run ignorer fileFilter concurrent
      (ElicitFilesFrom.init dir root) sched = some s ∧
    s.main = ElicitFilesFrom.Main.returned ∧ s.rvs = rvs
/-! ## Well-formed trees and the files a walk can reach -/

/-- A name a directory entry can have: not empty and without `/`. -/
def validName (n : String) : Bool :=
  decide (n.data ≠ [] ∧ '/' ∉ n.data)

mutual
/-- Every entry below this one has a valid name. -/
def Entry.namesValid : Entry → Bool
  | Entry.file _ => true
  | Entry.dir _ _ files => Entry.namesValidList files
/-- Every entry of the list, and every entry below one, has a valid name. -/
def Entry.namesValidList : List Entry → Bool
  | [] => true
  | f :: files => validName f.name && (Entry.namesValid f && Entry.namesValidList files)
end

mutual
/-- This directory and every directory below it can be opened and listed. -/
def Entry.listable : Entry → Bool
  | Entry.file _ => true
  | Entry.dir _ ok files => ok && Entry.listableList files
/-- Every directory in the list or below it can be opened and listed. -/
def Entry.listableList : List Entry → Bool
  | [] => true
  | f :: files => Entry.listable f && Entry.listableList files
end

mutual
/-- The files below a directory at path `dir` that a walk reaches, each with its
base name and its path: those of the listing, and those below the entries that
are listable directories and not ignored. -/
def visibleFiles (ignorer : DirFilter) (dir : String) : Entry → List (String × String)
  | Entry.file _ => []
  | Entry.dir _ ok files => if ok then visibleFilesIn ignorer dir files else []
/-- The files a walk reaches through the entries `files` of `dir`. -/
def visibleFilesIn (ignorer : DirFilter) (dir : String) : List Entry → List (String × String)
  | [] => []
  | f :: files =>
    (if f.IsDir then
      if !ignorer f.name then visibleFiles ignorer (Join dir f.name) f else []
    else [(f.name, Join dir f.name)])
    ++ visibleFilesIn ignorer dir files
end

/-- The directory components of the path `p` relative to the root `dir`, computed
as line 161-163 compute the relative path: the pieces of `p` without the
leading `dir` and `/`, the last piece (the base name) dropped. -/
def dirComponents (dir p : String) : List String :=
  (Split (TrimPrefix (TrimPrefix p dir) "/")).dropLast

/-- A character list without one leading `/`. -/
def trimSlash : List Char → List Char
  | '/' :: r => r
  | r => r

/-- The path `cur` is `dir` followed by the components `ms`. -/
def RelPath (dir cur : String) (ms : List String) : Prop :=
  ∃ r, cur.data = dir.data ++ r ∧
    ((ms = [] ∧ r = []) ∨
      (ms ≠ [] ∧ (∀ m ∈ ms, m.data ≠ []) ∧ splitSlash (trimSlash r) = ms.map String.data))

/-! ## `FindFirstFileWithSuffix`

Package `regexp` is modelled for the patterns made of literal characters, `.`,
escaped punctuation and a final `$`; on every other pattern the model is
undefined (`none`), which includes the patterns `regexp.MustCompile` panics on. -/

/-- One element of a pattern: a literal character, or `.`, which matches every
character but the newline. -/
inductive regexp.Atom where
  | lit (c : Char)
  | any
deriving Repr, DecidableEq

/-- A compiled pattern: its elements in order, and whether it ends in `$` (the
end of the text). -/
structure regexp.Regexp where
  atoms : List regexp.Atom
  atEnd : Bool
deriving Repr, DecidableEq

/-- The characters with a meaning of their own in a pattern. -/
def regexp.special : List Char :=
  ['\\', '.', '+', '*', '?', '(', ')', '|', '[', ']', '{', '}', '^', '$']

/-- The pattern with one more element in front. -/
def regexp.Regexp.cons (a : regexp.Atom) (re : regexp.Regexp) : regexp.Regexp :=
  { re with atoms := a :: re.atoms }

/-- Go `regexp.MustCompile` on the modelled patterns: a backslash before an
ASCII character that is no letter or digit makes it literal, `.` is any
character, a `$` is accepted as the last character only. -/
def regexp.MustCompile : List Char → Option regexp.Regexp
  | [] => some { atoms := [], atEnd := false }
  | c :: rest =>
    if c = '$' then
      if rest = [] then some { atoms := [], atEnd := true } else none
    else if c = '\\' then
      match rest with
      | [] => none
      | e :: rest1 =>
        if e.toNat < 128 && !e.isAlphanum then
          (regexp.MustCompile rest1).map (regexp.Regexp.cons (regexp.Atom.lit e))
        else none
    else if c = '.' then
      (regexp.MustCompile rest).map (regexp.Regexp.cons regexp.Atom.any)
    else if c ∈ regexp.special then none
    else (regexp.MustCompile rest).map (regexp.Regexp.cons (regexp.Atom.lit c))

/-- Whether an element matches a character. -/
def regexp.Atom.accepts : regexp.Atom → Char → Bool
  | regexp.Atom.lit c, x => c = x
  | regexp.Atom.any, x => x ≠ '\n'

/-- Whether the elements match at the start of the text (and, with `atEnd`,
use it up). -/
def regexp.matchHere (atEnd : Bool) : List regexp.Atom → List Char → Bool
  | [], t => !atEnd || t.isEmpty
  | _ :: _, [] => false
  | a :: as, c :: t => a.accepts c && regexp.matchHere atEnd as t

/-- Whether the pattern matches somewhere in the text. -/
def regexp.matchFrom (re : regexp.Regexp) : List Char → Bool
  | [] => regexp.matchHere re.atEnd re.atoms []
  | c :: t => regexp.matchHere re.atEnd re.atoms (c :: t) || regexp.matchFrom re t

/-- Go `(*Regexp).MatchString`: whether the string contains a match. -/
def regexp.Regexp.MatchString (re : regexp.Regexp) (s : String) : Bool :=
  regexp.matchFrom re s.data

/-- The elements of a path that `path.Clean` keeps, `out` holding those kept so
far, last first: empty elements and `.` are dropped, `..` removes the element
before it, is dropped at the start of a rooted path and kept otherwise. -/
def path.cleanParts (rooted : Bool) : List (List Char) → List (List Char) → List (List Char)
  | [], out => out.reverse
  | c :: cs, out =>
    if c = [] ∨ c = ['.'] then path.cleanParts rooted cs out
    else if c = ['.', '.'] then
      match out with
      | top :: rest =>
        if top = ['.', '.'] then path.cleanParts rooted cs (c :: out)
        else path.cleanParts rooted cs rest
      | [] => if rooted then path.cleanParts rooted cs [] else path.cleanParts rooted cs [c]
    else path.cleanParts rooted cs (c :: out)

/-- Go `path.Clean(p)`: the shortest path equivalent to `p` lexically; `.` for
the empty result of a path that is not rooted. -/
def path.Clean (p : String) : String :=
  let rooted := decide (p.data.head? = some '/')
  let body := List.intercalate ['/'] (path.cleanParts rooted (splitSlash p.data) [])
  if rooted then String.mk ('/' :: body)
  else if body = [] then "." else String.mk body

/-- Go `path.Join(dir, name)` for every pair of strings: the empty string when
both are empty, else the cleaned path of the elements joined by `/`, an empty
first element left out. -/
def path.Join (dir name : String) : String :=
  if dir = "" then
    if name = "" then "" else path.Clean name
  else path.Clean (dir ++ "/" ++ name)

/-- The entries of a listing sorted by name. -/
def Entry.sortByName (files : List Entry) : List Entry :=
  files.foldr Entry.insertByName []

/-- Go `ioutil.ReadDir(dir)`: the entries of the directory sorted by name, or an
error (`none`) when it cannot be listed. -/
def ioutil.ReadDir : Entry → Option (List Entry)
  | Entry.dir _ true files => some (Entry.sortByName files)
  | _ => none

/-- The errors of `FindFirstFileWithSuffix`: the one of `ioutil.ReadDir`, or
`fmt.Errorf("not found for .%v", suffix)` with its message. -/
inductive FindError where
  | readDir
  | notFound (msg : String)
deriving Repr, DecidableEq

/-- Function `FindFirstFileWithSuffix(dir, suffix)` on the directory `node` at
`dir`. The outer `none` stands for a pattern outside the modelled fragment. -/
def FindFirstFileWithSuffix (dir : String) (node : Entry) (suffix : String) :
    Option (Except FindError String) :=
  match regexp.MustCompile ("\\.".data ++ suffix.data ++ "$".data) with
  | none => none
  | some sp =>
    match ioutil.ReadDir node with
    | none => some (Except.error FindError.readDir)
    | some infos =>
      match infos.find? (fun info => sp.MatchString info.name) with
      | some info => some (Except.ok (path.Join dir info.name))
      | none => some (Except.error (FindError.notFound ("not found for ." ++ suffix)))

/-! ## A concrete walk -/

/-- A tree with the file `a.txt`, the directory `sub` holding `b.txt`, the
directory `bad` that cannot be listed, and the directory `.git`. -/
def sampleTree : Entry :=
  Entry.dir "r" true
    [Entry.file "a.txt", Entry.dir "sub" true [Entry.file "b.txt"],
      Entry.dir "bad" false [Entry.file "c.txt"], Entry.dir ".git" true [Entry.file "config"]]

/-- A schedule of the walk of `sampleTree` with two slots in which the
aggregator never receives: the root unit and the unit of `sub` run, then the
unit of `bad`, `readDone` is closed, the aggregator returns, and the final drain
collects the two paths. -/
def sampleSchedule : List ElicitFilesFrom.Action :=
  [ElicitFilesFrom.Action.walker 0, ElicitFilesFrom.Action.walker 0,
    ElicitFilesFrom.Action.walker 0, ElicitFilesFrom.Action.walker 0,
    ElicitFilesFrom.Action.walker 0, ElicitFilesFrom.Action.walker 1,
    ElicitFilesFrom.Action.walker 1, ElicitFilesFrom.Action.walker 1,
    ElicitFilesFrom.Action.walker 1, ElicitFilesFrom.Action.walker 1,
    ElicitFilesFrom.Action.walker 1, ElicitFilesFrom.Action.walker 0,
    ElicitFilesFrom.Action.walker 0, ElicitFilesFrom.Action.walker 1,
    ElicitFilesFrom.Action.walker 1, ElicitFilesFrom.Action.walker 1,
    ElicitFilesFrom.Action.walker 1, ElicitFilesFrom.Action.walker 0,
    ElicitFilesFrom.Action.walker 0, ElicitFilesFrom.Action.walker 0,
    ElicitFilesFrom.Action.walker 0, ElicitFilesFrom.Action.main,
    ElicitFilesFrom.Action.main, ElicitFilesFrom.Action.stop,
    ElicitFilesFrom.Action.main, ElicitFilesFrom.Action.main,
    ElicitFilesFrom.Action.main, ElicitFilesFrom.Action.main]

/-- The state `sampleSchedule` ends in: line 219 with both paths collected. -/
def sampleReturn : ElicitFilesFrom.State where
  units := []
  semaphoreChan := 0
  wg := 0
  fileReadCh := []
  readDone := true
  reading := false
  rvs := ["/r/a.txt", "/r/sub/b.txt"]
  main := ElicitFilesFrom.Main.returned
  sent := ["/r/a.txt", "/r/sub/b.txt"]

/-- The state after the first four steps of `sampleSchedule`: the root unit has
sent `/r/a.txt` and done `wg.Add(1)` for `sub`, which it has not started yet. -/
def sampleSpawning : ElicitFilesFrom.State where
  units :=
    [ElicitFilesFrom.Walker.spawn "/r" (Entry.dir "sub" true [Entry.file "b.txt"])
      [Entry.dir "bad" false [Entry.file "c.txt"], Entry.dir ".git" true [Entry.file "config"]]]
  semaphoreChan := 1
  wg := 2
  fileReadCh := ["/r/a.txt"]
  readDone := false
  reading := true
  rvs := []
  main := ElicitFilesFrom.Main.waitWalk
  sent := ["/r/a.txt"]

/-- The state after the first seven steps of `sampleSchedule`: the root unit and
the unit of `sub` both hold a slot. -/
def sampleBusy : ElicitFilesFrom.State where
  units :=
    [ElicitFilesFrom.Walker.loop "/r"
      [Entry.dir "bad" false [Entry.file "c.txt"], Entry.dir ".git" true [Entry.file "config"]],
      ElicitFilesFrom.Walker.loop "/r/sub" [Entry.file "b.txt"]]
  semaphoreChan := 2
  wg := 2
  fileReadCh := ["/r/a.txt"]
  readDone := false
  reading := true
  rvs := []
  main := ElicitFilesFrom.Main.waitWalk
  sent := ["/r/a.txt"]

/-- The tree of the scenario of the specification: the root holds `a.txt`,
`sub/b.txt` and `.git/config`. -/
def scenarioTree : Entry :=
  Entry.dir "root" true
    [Entry.file "a.txt", Entry.dir "sub" true [Entry.file "b.txt"],
      Entry.dir ".git" true [Entry.file "config"]]

/-- A tree whose first entry by name, the directory `aaa`, cannot be listed, next
to the file `b.txt`. -/
def unlistableTree : Entry :=
  Entry.dir "r" true [Entry.dir "aaa" false [], Entry.file "b.txt"]

/-- A file filter that looks at the directory: it accepts the paths below
`/r/`. -/
def underR : FileFilter :=
  fun name => "/r/".data.isPrefixOf name.data

/-- A directory filter that ignores every name, the empty one included. -/
def ignoreAll : DirFilter :=
  fun _ => true

/-- What `os.Lstat` reports at the root path of a walk: the directory itself,
or, when the path is a symbolic link to it, an entry that is not a directory.
Function `filepath.Walk` looks at its root with `Lstat`, while `os.Open` in
`walkSub` follows the link. -/
def lstatRoot (link : Bool) (node : Entry) : Entry :=
  if link then Entry.file node.name else node

/-- A root directory that is itself named `.git` and holds the file `config`. -/
def gitRoot : Entry :=
  Entry.dir ".git" true [Entry.file "config"]

/-- A root holding the file `a.txt` and the directory `bad`, which cannot be
listed. -/
def partlyListable : Entry :=
  Entry.dir "r" true [Entry.file "a.txt", Entry.dir "bad" false []]

/-! ## Lists -/

theorem sum_map_set {α M : Type} [AddCommMonoid M] (f : α → M) :
    ∀ (l : List α) (i : Nat) (u x : α), l.get? i = some u →
      ((l.set i x).map f).sum + f u = (l.map f).sum + f x
  | [], i, u, x, h => by simp at h
  | a :: l, 0, u, x, h => by
    simp at h
    subst h
    simp only [List.set_cons_zero, List.map_cons, List.sum_cons]
    abel
  | a :: l, i + 1, u, x, h => by
    simp at h
    have ih := sum_map_set f l i u x (by simpa using h)
    simp only [List.set_cons_succ, List.map_cons, List.sum_cons, add_assoc, ih]

theorem sum_map_eraseIdx {α M : Type} [AddCommMonoid M] (f : α → M) :
    ∀ (l : List α) (i : Nat) (u : α), l.get? i = some u →
      ((l.eraseIdx i).map f).sum + f u = (l.map f).sum
  | [], i, u, h => by simp at h
  | a :: l, 0, u, h => by
    simp at h
    subst h
    simp [add_comm]
  | a :: l, i + 1, u, h => by
    simp at h
    have ih := sum_map_eraseIdx f l i u (by simpa using h)
    simp only [List.eraseIdx_cons_succ, List.map_cons, List.sum_cons, add_assoc, ih]

namespace ElicitFilesFrom

theorem Invariant.initial (ignorer : DirFilter) (fileFilter : FileFilter) (concurrent : Nat)
    (dir : String) (root : Entry) :
    Invariant ignorer fileFilter concurrent dir root (init dir root) := by
  constructor <;> simp [ElicitFilesFrom.init, State.holders, State.outstanding, Walker.slots,
    Walker.outstanding, Walker.sends, Walker.pending]

end ElicitFilesFrom

namespace ElicitFilesFrom

theorem Invariant.update {ignorer : DirFilter} {fileFilter : FileFilter} {concurrent : Nat}
    {dir : String} {root : Entry} {s : State}
    (inv : Invariant ignorer fileFilter concurrent dir root s) (hmain : s.main = Main.waitWalk)
    (units : List Walker) (sem : Nat) (wg : Int) (ch sent : List String)
    (h1 : sem = (units.map Walker.slots).sum) (h2 : sem ≤ concurrent)
    (h3 : wg = ((units.map Walker.outstanding).sum : Nat)) (h4 : s.rvs ++ ch = sent)
    (h5 : (sent : Multiset String)
        + (units.map (Walker.pending ignorer fileFilter)).sum
      = (s.sent : Multiset String) + (s.units.map (Walker.pending ignorer fileFilter)).sum) :
    Invariant ignorer fileFilter concurrent dir root
      { s with units := units, semaphoreChan := sem, wg := wg, fileReadCh := ch, sent := sent } := by
  obtain ⟨_, _, _, _, hpaths, hclosed, hagg, _, _, _⟩ := inv
  refine ⟨h1, h2, h3, h4, ?_, hclosed, hagg, ?_, ?_, ?_⟩
  · simpa [h5] using hpaths
  · intro hne; exact absurd hmain hne
  · simp [hmain]
  · simp [hmain]

theorem Invariant.preserved_walker {ignorer : DirFilter} {fileFilter : FileFilter} {concurrent : Nat}
    {dir : String} {root : Entry} {s s1 : State} {i : Nat}
    (inv : Invariant ignorer fileFilter concurrent dir root s)
    (h : stepWalker ignorer fileFilter concurrent s i = some s1) :
    Invariant ignorer fileFilter concurrent dir root s1 := by
  have hmain : s.main = Main.waitWalk := by
    by_contra hne
    have := inv.waited hne
    simp [ElicitFilesFrom.stepWalker, this] at h
  have hslots := inv.slots
  have hbound := inv.bound
  have hcount := inv.count
  have hcoll := inv.collected
  unfold State.holders at hslots
  unfold State.outstanding at hcount
  unfold ElicitFilesFrom.stepWalker at h
  split at h
  · simp at h
  · -- acquire
    rename_i d node hget
    split at h
    · rename_i hlt
      simp only [Option.some.injEq] at h
      subst h
      have e1 := sum_map_set Walker.slots s.units i _ (Walker.listing d node) hget
      have e2 := sum_map_set Walker.outstanding s.units i _ (Walker.listing d node) hget
      have e3 := sum_map_set (Walker.pending ignorer fileFilter) s.units i _ (Walker.listing d node) hget
      simp only [Walker.slots, Walker.outstanding, Walker.pending, Walker.sends] at e1 e2 e3
      refine Invariant.update inv hmain _ _ _ _ _ ?_ ?_ ?_ hcoll ?_
      · omega
      · omega
      · omega
      · rw [add_right_cancel e3]
    · simp at h
  · -- listing
    rename_i d node hget
    have e1 := fun x => sum_map_set Walker.slots s.units i _ x hget
    have e2 := fun x => sum_map_set Walker.outstanding s.units i _ x hget
    have e3 := fun x => sum_map_set (Walker.pending ignorer fileFilter) s.units i _ x hget
    split at h
    · rename_i n files
      simp only [Option.some.injEq] at h
      subst h
      have e1 := e1 (Walker.loop d files)
      have e2 := e2 (Walker.loop d files)
      have e3 := e3 (Walker.loop d files)
      simp only [Walker.slots, Walker.outstanding, Walker.pending, Walker.sends, walkSub.sends,
        if_true] at e1 e2 e3
      refine Invariant.update inv hmain _ _ _ _ _ ?_ hbound ?_ hcoll ?_
      · omega
      · omega
      · rw [add_right_cancel e3]
    · rename_i hnode
      simp only [Option.some.injEq] at h
      subst h
      have hnone : walkSub.sends ignorer fileFilter d node = [] := by
        cases node with
        | file n => simp [walkSub.sends]
        | dir n ok files =>
          cases ok with
          | true => exact absurd rfl (hnode n files)
          | false => simp [walkSub.sends]
      have e1 := e1 Walker.release
      have e2 := e2 Walker.release
      have e3 := e3 Walker.release
      simp only [Walker.slots, Walker.outstanding, Walker.pending, Walker.sends, hnone] at e1 e2 e3
      refine Invariant.update inv hmain _ _ _ _ _ ?_ hbound ?_ hcoll ?_
      · omega
      · omega
      · rw [add_right_cancel e3]
  · -- loop, no entry left
    rename_i d hget
    simp only [Option.some.injEq] at h
    subst h
    have e1 := sum_map_set Walker.slots s.units i _ Walker.release hget
    have e2 := sum_map_set Walker.outstanding s.units i _ Walker.release hget
    have e3 := sum_map_set (Walker.pending ignorer fileFilter) s.units i _ Walker.release hget
    simp only [Walker.slots, Walker.outstanding, Walker.pending, Walker.sends,
      walkSub.loopSends] at e1 e2 e3
    refine Invariant.update inv hmain _ _ _ _ _ ?_ hbound ?_ hcoll ?_
    · omega
    · omega
    · rw [add_right_cancel e3]
  · -- loop, one entry
    rename_i d f files hget
    have e1 := fun x => sum_map_set Walker.slots s.units i _ x hget
    have e2 := fun x => sum_map_set Walker.outstanding s.units i _ x hget
    have e3 := fun x => sum_map_set (Walker.pending ignorer fileFilter) s.units i _ x hget
    split at h
    · rename_i hdir
      split at h
      · rename_i hign
        simp only [Option.some.injEq] at h
        subst h
        have e1 := e1 (Walker.spawn d f files)
        have e2 := e2 (Walker.spawn d f files)
        have e3 := e3 (Walker.spawn d f files)
        simp only [Walker.slots, Walker.outstanding, Walker.pending, Walker.sends,
          walkSub.loopSends, hdir, hign, if_true] at e1 e2 e3
        refine Invariant.update inv hmain _ _ _ _ _ ?_ hbound ?_ hcoll ?_
        · omega
        · omega
        · rw [add_right_cancel e3]
      · rename_i hign
        simp only [Option.some.injEq] at h
        subst h
        have e1 := e1 (Walker.loop d files)
        have e2 := e2 (Walker.loop d files)
        have e3 := e3 (Walker.loop d files)
        simp only [Walker.slots, Walker.outstanding, Walker.pending, Walker.sends,
          walkSub.loopSends, hdir, hign, if_true, if_false, List.nil_append] at e1 e2 e3
        refine Invariant.update inv hmain _ _ _ _ _ ?_ hbound ?_ hcoll ?_
        · omega
        · omega
        · rw [add_right_cancel e3]
    · rename_i hdir
      split at h
      · rename_i hinc
        split at h
        · simp only [Option.some.injEq] at h
          subst h
          have e1 := e1 (Walker.loop d files)
          have e2 := e2 (Walker.loop d files)
          have e3 := e3 (Walker.loop d files)
          simp only [Walker.slots, Walker.outstanding, Walker.pending, Walker.sends,
            walkSub.loopSends, hdir, hinc, if_true, Bool.false_eq_true, if_false] at e1 e2 e3
          rw [← Multiset.coe_add, ← add_assoc] at e3
          have e4 := add_right_cancel e3
          refine Invariant.update inv hmain _ _ _ _ _ ?_ hbound ?_ ?_ ?_
          · omega
          · omega
          · rw [← hcoll, List.append_assoc]
          · rw [← Multiset.coe_add, ← e4]
            abel
        · simp at h
      · rename_i hinc
        simp only [Option.some.injEq] at h
        subst h
        have e1 := e1 (Walker.loop d files)
        have e2 := e2 (Walker.loop d files)
        have e3 := e3 (Walker.loop d files)
        simp only [Walker.slots, Walker.outstanding, Walker.pending, Walker.sends,
          walkSub.loopSends, hdir, hinc, if_true, Bool.false_eq_true, if_false,
          List.nil_append] at e1 e2 e3
        refine Invariant.update inv hmain _ _ _ _ _ ?_ hbound ?_ hcoll ?_
        · omega
        · omega
        · rw [add_right_cancel e3]
  · -- spawn
    rename_i d child files hget
    simp only [Option.some.injEq] at h
    subst h
    have e1 := sum_map_set Walker.slots s.units i _ (Walker.loop d files) hget
    have e2 := sum_map_set Walker.outstanding s.units i _ (Walker.loop d files) hget
    have e3 := sum_map_set (Walker.pending ignorer fileFilter) s.units i _ (Walker.loop d files) hget
    simp only [Walker.slots, Walker.outstanding, Walker.pending, Walker.sends] at e1 e2 e3
    rw [← Multiset.coe_add] at e3
    refine Invariant.update inv hmain _ _ _ _ _ ?_ hbound ?_ hcoll ?_
    · simp only [List.map_append, List.sum_append, List.map_cons, List.map_nil, List.sum_cons,
        List.sum_nil, Walker.slots]
      omega
    · simp only [List.map_append, List.sum_append, List.map_cons, List.map_nil, List.sum_cons,
        List.sum_nil, Walker.outstanding]
      omega
    · simp only [List.map_append, List.sum_append, List.map_cons, List.map_nil, List.sum_cons,
        List.sum_nil, Walker.pending, Walker.sends, add_zero]
      rw [← add_assoc] at e3
      rw [add_right_cancel e3]
  · -- release
    rename_i hget
    split at h
    · rename_i hpos
      simp only [Option.some.injEq] at h
      subst h
      have e1 := sum_map_set Walker.slots s.units i _ Walker.done hget
      have e2 := sum_map_set Walker.outstanding s.units i _ Walker.done hget
      have e3 := sum_map_set (Walker.pending ignorer fileFilter) s.units i _ Walker.done hget
      simp only [Walker.slots, Walker.outstanding, Walker.pending, Walker.sends] at e1 e2 e3
      refine Invariant.update inv hmain _ _ _ _ _ ?_ ?_ ?_ hcoll ?_
      · omega
      · omega
      · omega
      · rw [add_right_cancel e3]
    · simp at h
  · -- done
    rename_i hget
    simp only [Option.some.injEq] at h
    subst h
    have e1 := sum_map_eraseIdx Walker.slots s.units i _ hget
    have e2 := sum_map_eraseIdx Walker.outstanding s.units i _ hget
    have e3 := sum_map_eraseIdx (Walker.pending ignorer fileFilter) s.units i _ hget
    simp only [Walker.slots, Walker.outstanding, Walker.pending, Walker.sends,
      Multiset.coe_nil, add_zero] at e1 e2 e3
    refine Invariant.update inv hmain _ _ _ _ _ ?_ hbound ?_ hcoll ?_
    · omega
    · omega
    · rw [e3]

theorem Invariant.preserved {ignorer : DirFilter} {fileFilter : FileFilter} {concurrent : Nat}
    {dir : String} {root : Entry} {s s1 : State} {a : Action}
    (inv : Invariant ignorer fileFilter concurrent dir root s)
    (h : step ignorer fileFilter concurrent s a = some s1) :
    Invariant ignorer fileFilter concurrent dir root s1 := by
  cases a with
  | walker i => exact inv.preserved_walker h
  | receive =>
    obtain ⟨hslots, hbound, hcount, hcoll, hpaths, hclosed, hagg, hwaited, hjoined, hdrained⟩ := inv
    simp only [ElicitFilesFrom.step] at h
    split at h
    · rename_i hreading
      split at h
      · rename_i fpath rest hch
        simp only [Option.some.injEq] at h
        subst h
        refine ⟨hslots, hbound, hcount, ?_, hpaths, hclosed, hagg, hwaited, hjoined, ?_⟩
        · simp [← hcoll, hch]
        · intro hm
          have := hjoined (Or.inr hm)
          simp [hreading] at this
      · simp at h
    · simp at h
  | stop =>
    obtain ⟨hslots, hbound, hcount, hcoll, hpaths, hclosed, hagg, hwaited, hjoined, hdrained⟩ := inv
    simp only [ElicitFilesFrom.step] at h
    split at h
    · rename_i hc
      simp only [Bool.and_eq_true] at hc
      simp only [Option.some.injEq] at h
      subst h
      refine ⟨hslots, hbound, hcount, hcoll, hpaths, hclosed, ?_, hwaited, ?_, hdrained⟩
      · intro hrd
        simp [hc.2] at hrd
      · intro _
        rfl
    · simp at h
  | main =>
    obtain ⟨hslots, hbound, hcount, hcoll, hpaths, hclosed, hagg, hwaited, hjoined, hdrained⟩ := inv
    simp only [ElicitFilesFrom.step] at h
    split at h
    · -- wg.Wait()
      rename_i hm
      split at h
      · rename_i hwg
        simp only [Option.some.injEq] at h
        subst h
        have hunits : s.units = [] := by
          rw [hwg] at hcount
          unfold State.outstanding at hcount
          cases hu : s.units with
          | nil => rfl
          | cons u us =>
            rw [hu] at hcount
            simp only [List.map_cons, List.sum_cons] at hcount
            have : 1 ≤ u.outstanding := by cases u <;> simp [Walker.outstanding]
            omega
        refine ⟨hslots, hbound, hcount, hcoll, hpaths, ?_, hagg, ?_, ?_, ?_⟩
        · simpa [hm] using hclosed
        · intro _; exact hunits
        · simp
        · simp
      · simp at h
    · -- close(readDone)
      rename_i hm
      simp only [Option.some.injEq] at h
      subst h
      refine ⟨hslots, hbound, hcount, hcoll, hpaths, ?_, ?_, ?_, ?_, ?_⟩
      · simp
      · simp
      · intro _; exact hwaited (by simp [hm])
      · simp
      · simp
    · -- wRead.Wait()
      rename_i hm
      split at h
      · simp at h
      · rename_i hreading
        simp only [Option.some.injEq] at h
        subst h
        refine ⟨hslots, hbound, hcount, hcoll, hpaths, ?_, hagg, ?_, ?_, ?_⟩
        · simpa [hm] using hclosed
        · intro _; exact hwaited (by simp [hm])
        · intro _; simpa using hreading
        · simp
    · -- the drain
      rename_i hm
      split at h
      · rename_i nuevo rest hch
        simp only [Option.some.injEq] at h
        subst h
        refine ⟨hslots, hbound, hcount, ?_, hpaths, hclosed, hagg, hwaited, hjoined, ?_⟩
        · simp [← hcoll, hch]
        · simp [hm]
      · rename_i hch
        simp only [Option.some.injEq] at h
        subst h
        refine ⟨hslots, hbound, hcount, hcoll, hpaths, ?_, hagg, ?_, ?_, ?_⟩
        · simpa [hm] using hclosed
        · intro _; exact hwaited (by simp [hm])
        · intro _; exact hjoined (Or.inl hm)
        · intro _; exact hch
    · simp at h

theorem Invariant.preserved_run {ignorer : DirFilter} {fileFilter : FileFilter} {concurrent : Nat}
    {dir : String} {root : Entry} :
    ∀ (sched : List Action) (s s1 : State),
      Invariant ignorer fileFilter concurrent dir root s →
      run ignorer fileFilter concurrent s sched = some s1 →
      Invariant ignorer fileFilter concurrent dir root s1
  | [], s, s1, inv, h => by
    simp only [ElicitFilesFrom.run, Option.some.injEq] at h
    exact h ▸ inv
  | a :: sched, s, s1, inv, h => by
    simp only [ElicitFilesFrom.run] at h
    split at h
    · rename_i s2 hstep
      exact Invariant.preserved_run sched s2 s1 (inv.preserved hstep) h
    · simp at h

theorem Invariant.of_reachable {ignorer : DirFilter} {fileFilter : FileFilter} {concurrent : Nat}
    {dir : String} {root : Entry} {sched : List Action} {s : State}
    (h : run ignorer fileFilter concurrent (init dir root) sched = some s) :
    Invariant ignorer fileFilter concurrent dir root s :=
  Invariant.preserved_run sched _ s (Invariant.initial ignorer fileFilter concurrent dir root) h

end ElicitFilesFrom

theorem Entry.cost_pos (e : Entry) : 4 ≤ e.cost := by
  cases e with
  | file n => simp [Entry.cost]
  | dir n ok files => simp only [Entry.cost]; omega

namespace ElicitFilesFrom

theorem budget_stepWalker {ignorer : DirFilter} {fileFilter : FileFilter} {concurrent : Nat}
    {s s1 : State} {i : Nat}
    (h : stepWalker ignorer fileFilter concurrent s i = some s1) :
    s1.budget + 1 ≤ s.budget := by
  unfold ElicitFilesFrom.stepWalker at h
  unfold State.budget
  split at h
  · simp at h
  · rename_i d node hget
    split at h
    · simp only [Option.some.injEq] at h
      subst h
      have e1 := sum_map_set Walker.cost s.units i _ (Walker.listing d node) hget
      have := Entry.cost_pos node
      simp only [Walker.cost] at e1
      simp only
      omega
    · simp at h
  · rename_i d node hget
    have e1 := fun x => sum_map_set Walker.cost s.units i _ x hget
    have := Entry.cost_pos node
    split at h
    · rename_i n files
      simp only [Option.some.injEq] at h
      subst h
      have e1 := e1 (Walker.loop d files)
      simp only [Walker.cost, Entry.cost] at e1
      simp only
      omega
    · simp only [Option.some.injEq] at h
      subst h
      have e1 := e1 Walker.release
      simp only [Walker.cost] at e1
      simp only
      omega
  · rename_i d hget
    simp only [Option.some.injEq] at h
    subst h
    have e1 := sum_map_set Walker.cost s.units i _ Walker.release hget
    simp only [Walker.cost, Entry.costList] at e1
    simp only
    omega
  · rename_i d f files hget
    have e1 := fun x => sum_map_set Walker.cost s.units i _ x hget
    have := Entry.cost_pos f
    split at h
    · split at h
      · simp only [Option.some.injEq] at h
        subst h
        have e1 := e1 (Walker.spawn d f files)
        simp only [Walker.cost, Entry.costList] at e1
        simp only
        omega
      · simp only [Option.some.injEq] at h
        subst h
        have e1 := e1 (Walker.loop d files)
        simp only [Walker.cost, Entry.costList] at e1
        simp only
        omega
    · split at h
      · split at h
        · simp only [Option.some.injEq] at h
          subst h
          have e1 := e1 (Walker.loop d files)
          simp only [Walker.cost, Entry.costList] at e1
          simp only [List.length_append, List.length_singleton]
          omega
        · simp at h
      · simp only [Option.some.injEq] at h
        subst h
        have e1 := e1 (Walker.loop d files)
        simp only [Walker.cost, Entry.costList] at e1
        simp only
        omega
  · rename_i d child files hget
    simp only [Option.some.injEq] at h
    subst h
    have e1 := sum_map_set Walker.cost s.units i _ (Walker.loop d files) hget
    simp only [Walker.cost] at e1
    simp only [List.map_append, List.sum_append, List.map_cons, List.map_nil, List.sum_cons,
      List.sum_nil, Walker.cost]
    omega
  · rename_i hget
    split at h
    · simp only [Option.some.injEq] at h
      subst h
      have e1 := sum_map_set Walker.cost s.units i _ Walker.done hget
      simp only [Walker.cost] at e1
      simp only
      omega
    · simp at h
  · rename_i hget
    simp only [Option.some.injEq] at h
    subst h
    have e1 := sum_map_eraseIdx Walker.cost s.units i _ hget
    simp only [Walker.cost] at e1
    simp only
    omega

theorem budget_step {ignorer : DirFilter} {fileFilter : FileFilter} {concurrent : Nat}
    {s s1 : State} {a : Action}
    (h : step ignorer fileFilter concurrent s a = some s1) :
    s1.budget + 1 ≤ s.budget := by
  cases a with
  | walker i => exact budget_stepWalker h
  | receive =>
    simp only [ElicitFilesFrom.step] at h
    split at h
    · split at h
      · rename_i fpath rest hch
        simp only [Option.some.injEq] at h
        subst h
        simp only [State.budget, hch, List.length_cons]
        omega
      · simp at h
    · simp at h
  | stop =>
    simp only [ElicitFilesFrom.step] at h
    split at h
    · rename_i hc
      simp only [Bool.and_eq_true] at hc
      simp only [Option.some.injEq] at h
      subst h
      simp [State.budget, hc.1]
    · simp at h
  | main =>
    simp only [ElicitFilesFrom.step] at h
    split at h
    · rename_i hm
      split at h
      · simp only [Option.some.injEq] at h
        subst h
        simp only [State.budget, hm, Main.cost]
        omega
      · simp at h
    · rename_i hm
      simp only [Option.some.injEq] at h
      subst h
      simp only [State.budget, hm, Main.cost]
      omega
    · rename_i hm
      split at h
      · simp at h
      · simp only [Option.some.injEq] at h
        subst h
        simp only [State.budget, hm, Main.cost]
        omega
    · rename_i hm
      split at h
      · rename_i nuevo rest hch
        simp only [Option.some.injEq] at h
        subst h
        simp only [State.budget, hm, Main.cost, hch, List.length_cons]
        omega
      · simp only [Option.some.injEq] at h
        subst h
        simp only [State.budget, hm, Main.cost]
        omega
    · simp at h

theorem budget_run {ignorer : DirFilter} {fileFilter : FileFilter} {concurrent : Nat} :
    ∀ (sched : List Action) (s s1 : State),
      run ignorer fileFilter concurrent s sched = some s1 →
      s1.budget + sched.length ≤ s.budget
  | [], s, s1, h => by
    simp only [ElicitFilesFrom.run, Option.some.injEq] at h
    simp [h]
  | a :: sched, s, s1, h => by
    simp only [ElicitFilesFrom.run] at h
    split at h
    · rename_i s2 hstep
      have := budget_run sched s2 s1 h
      have := budget_step hstep
      simp only [List.length_cons]
      omega
    · simp at h

theorem run_append {ignorer : DirFilter} {fileFilter : FileFilter} {concurrent : Nat} :
    ∀ (sched more : List Action) (s s1 s2 : State),
      run ignorer fileFilter concurrent s sched = some s1 →
      run ignorer fileFilter concurrent s1 more = some s2 →
      run ignorer fileFilter concurrent s (sched ++ more) = some s2
  | [], more, s, s1, s2, h, h2 => by
    simp only [ElicitFilesFrom.run, Option.some.injEq] at h
    simpa [h] using h2
  | a :: sched, more, s, s1, s2, h, h2 => by
    simp only [ElicitFilesFrom.run, List.cons_append] at h ⊢
    split at h
    · rename_i s3 hstep
      exact run_append sched more s3 s1 s2 h h2
    · simp at h


theorem exists_slot_of_sum_pos :
    ∀ (l : List Walker), 1 ≤ (l.map Walker.slots).sum →
      ∃ i u, l.get? i = some u ∧ u.slots = 1
  | [], h => by simp at h
  | u :: l, h => by
    by_cases hu : u.slots = 1
    · exact ⟨0, u, rfl, hu⟩
    · have h0 : u.slots = 0 := by cases u <;> simp_all [Walker.slots]
      simp only [List.map_cons, List.sum_cons, h0, zero_add] at h
      obtain ⟨i, v, hget, hv⟩ := exists_slot_of_sum_pos l h
      exact ⟨i + 1, v, by simpa using hget, hv⟩

theorem slot_le_sum :
    ∀ (l : List Walker) (i : Nat) (u : Walker), l.get? i = some u →
      u.slots ≤ (l.map Walker.slots).sum
  | [], i, u, h => by simp at h
  | v :: l, 0, u, h => by
    simp at h
    subst h
    simp
  | v :: l, i + 1, u, h => by
    have := slot_le_sum l i u (by simpa using h)
    simp only [List.map_cons, List.sum_cons]
    omega

theorem Invariant.enabled {ignorer : DirFilter} {fileFilter : FileFilter} {concurrent : Nat}
    {dir : String} {root : Entry} {s : State}
    (inv : Invariant ignorer fileFilter concurrent dir root s) (hN : 1 ≤ concurrent)
    (hmain : s.main ≠ Main.returned) :
    ∃ a, (step ignorer fileFilter concurrent s a).isSome = true := by
  cases hm : s.main with
  | returned => exact absurd hm hmain
  | closeRead => exact ⟨Action.main, by simp [ElicitFilesFrom.step, hm]⟩
  | drain =>
    cases hch : s.fileReadCh with
    | nil => exact ⟨Action.main, by simp [ElicitFilesFrom.step, hm, hch]⟩
    | cons p rest => exact ⟨Action.main, by simp [ElicitFilesFrom.step, hm, hch]⟩
  | waitRead =>
    cases hr : s.reading with
    | false => exact ⟨Action.main, by simp [ElicitFilesFrom.step, hm, hr]⟩
    | true =>
      have hd : s.readDone = true := by
        cases hrd : s.readDone with
        | true => rfl
        | false =>
          have := inv.closed.1 hrd
          simp [hm] at this
      exact ⟨Action.stop, by simp [ElicitFilesFrom.step, hr, hd]⟩
  | waitWalk =>
    have hreading : s.reading = true := inv.aggregator (inv.closed.2 (Or.inl hm))
    have hslots := inv.slots
    unfold State.holders at hslots
    by_cases hsum : 1 ≤ (s.units.map Walker.slots).sum
    · obtain ⟨i, u, hget, hu⟩ := exists_slot_of_sum_pos s.units hsum
      cases u with
      | acquire d node => simp [Walker.slots] at hu
      | done => simp [Walker.slots] at hu
      | listing d node =>
        refine ⟨Action.walker i, ?_⟩
        simp only [ElicitFilesFrom.step, ElicitFilesFrom.stepWalker, hget]
        split <;> rfl
      | spawn d child files =>
        exact ⟨Action.walker i, by
          simp only [ElicitFilesFrom.step, ElicitFilesFrom.stepWalker, hget]; rfl⟩
      | release =>
        have : 0 < s.semaphoreChan := by omega
        exact ⟨Action.walker i, by
          simp only [ElicitFilesFrom.step, ElicitFilesFrom.stepWalker, hget, this, if_true]; rfl⟩
      | loop d files =>
        cases files with
        | nil =>
          exact ⟨Action.walker i, by
            simp only [ElicitFilesFrom.step, ElicitFilesFrom.stepWalker, hget]; rfl⟩
        | cons f files =>
          by_cases hroom : s.fileReadCh.length < fileReadChCap
          · refine ⟨Action.walker i, ?_⟩
            simp only [ElicitFilesFrom.step, ElicitFilesFrom.stepWalker, hget, hroom, if_true]
            split
            · split <;> rfl
            · split <;> rfl
          · cases hch : s.fileReadCh with
            | nil => simp [hch, fileReadChCap] at hroom
            | cons p rest =>
              exact ⟨Action.receive, by simp [ElicitFilesFrom.step, hreading, hch]⟩
    · have hsem : s.semaphoreChan < concurrent := by omega
      cases hu : s.units with
      | nil =>
        have hwg : s.wg = 0 := by
          have := inv.count
          simpa [State.outstanding, hu] using this
        exact ⟨Action.main, by simp [ElicitFilesFrom.step, hm, hwg]⟩
      | cons u us =>
        have hget : s.units.get? 0 = some u := by simp [hu]
        have hle := slot_le_sum s.units 0 u hget
        cases u with
        | acquire d node =>
          exact ⟨Action.walker 0, by
            simp only [ElicitFilesFrom.step, ElicitFilesFrom.stepWalker, hget, hsem, if_true]; rfl⟩
        | done =>
          exact ⟨Action.walker 0, by
            simp only [ElicitFilesFrom.step, ElicitFilesFrom.stepWalker, hget]; rfl⟩
        | listing d node => simp only [Walker.slots] at hle; omega
        | loop d files => simp only [Walker.slots] at hle; omega
        | spawn d child files => simp only [Walker.slots] at hle; omega
        | release => simp only [Walker.slots] at hle; omega

/-- No deadlock: while `ElicitFilesFrom` has not returned, some goroutine can
take a step. -/
theorem Invariant.progress {ignorer : DirFilter} {fileFilter : FileFilter} {concurrent : Nat}
    {dir : String} {root : Entry} {s : State}
    (inv : Invariant ignorer fileFilter concurrent dir root s) (hN : 1 ≤ concurrent)
    (hmain : s.main ≠ Main.returned) :
    ∃ a s1, step ignorer fileFilter concurrent s a = some s1 := by
  obtain ⟨a, ha⟩ := inv.enabled hN hmain
  exact ⟨a, Option.isSome_iff_exists.1 ha⟩

/-- From every state of a run the call can be run to its return. -/
theorem Invariant.completes {ignorer : DirFilter} {fileFilter : FileFilter} {concurrent : Nat}
    {dir : String} {root : Entry} (hN : 1 ≤ concurrent) :
    ∀ (n : Nat) (s : State), s.budget ≤ n →
      Invariant ignorer fileFilter concurrent dir root s →
      ∃ sched s1, run ignorer fileFilter concurrent s sched = some s1 ∧
        s1.main = Main.returned
  | 0, s, hb, inv => by
    by_cases hm : s.main = Main.returned
    · exact ⟨[], s, rfl, hm⟩
    · obtain ⟨a, s1, h⟩ := inv.progress hN hm
      have := budget_step h
      omega
  | n + 1, s, hb, inv => by
    by_cases hm : s.main = Main.returned
    · exact ⟨[], s, rfl, hm⟩
    · obtain ⟨a, s1, h⟩ := inv.progress hN hm
      have hlt := budget_step h
      obtain ⟨sched, s2, hrun, hret⟩ :=
        Invariant.completes hN n s1 (by omega) (inv.preserved h)
      refine ⟨a :: sched, s2, ?_, hret⟩
      simp only [ElicitFilesFrom.run, h, hrun]

end ElicitFilesFrom

/-! ## Strings -/

theorem splitSlash_ne_nil : ∀ l : List Char, splitSlash l ≠ []
  | [] => by simp [splitSlash]
  | c :: cs => by
    simp only [splitSlash]
    split
    · simp
    · split <;> simp

theorem splitSlash_of_not_mem : ∀ n : List Char, '/' ∉ n → splitSlash n = [n]
  | [], _ => rfl
  | c :: cs, h => by
    have hc : c ≠ '/' := fun e => h (by simp [e])
    have hcs : '/' ∉ cs := fun e => h (by simp [e])
    simp [splitSlash, hc, splitSlash_of_not_mem cs hcs]

theorem splitSlash_append : ∀ (a n : List Char), '/' ∉ n →
    splitSlash (a ++ '/' :: n) = splitSlash a ++ [n]
  | [], n, h => by simp [splitSlash, splitSlash_of_not_mem n h]
  | c :: cs, n, h => by
    have ih := splitSlash_append cs n h
    by_cases hc : c = '/'
    · simp [splitSlash, hc, ih]
    · cases hs : splitSlash cs with
      | nil => exact absurd hs (splitSlash_ne_nil cs)
      | cons seg segs =>
        rw [hs] at ih
        simp only [List.cons_append, splitSlash, hc, if_false, hs]
        rw [show cs.append ('/' :: n) = cs ++ '/' :: n from rfl, ih]
        rfl

theorem TrimPrefix_append (d r : List Char) :
    TrimPrefix (String.mk (d ++ r)) (String.mk d) = String.mk r := by
  have h : d.isPrefixOf (d ++ r) = true := by
    rw [ List.isPrefixOf_iff_prefix]
    exact List.prefix_append d r
  simp [TrimPrefix, h]

theorem TrimPrefix_slash (r : List Char) :
    TrimPrefix (String.mk r) "/" = String.mk (trimSlash r) := by
  cases r with
  | nil => simp [TrimPrefix, trimSlash]
  | cons c cs =>
    by_cases hc : c = '/'
    · subst hc
      simp [TrimPrefix, trimSlash]
    · have : trimSlash (c :: cs) = c :: cs := by
        unfold trimSlash
        split
        · rename_i heq
          simp at heq
          exact absurd heq.1 hc
        · rfl
      rw [this]
      have hp : ("/".data).isPrefixOf (c :: cs) = false := by
        simp [List.isPrefixOf, hc]
        exact fun e => hc e.symm
      simp [TrimPrefix, hp]

theorem validName_iff (n : String) : validName n = true ↔ n.data ≠ [] ∧ '/' ∉ n.data := by
  simp [validName]

theorem trimSlash_of_valid (n : List Char) (h : '/' ∉ n) : trimSlash n = n := by
  cases n with
  | nil => rfl
  | cons c cs =>
    unfold trimSlash
    split
    · rename_i heq
      simp only [List.cons.injEq] at heq
      exact absurd (by simp [heq.1]) h
    · rfl

theorem trimSlash_append (r n : List Char) (hr : r ≠ []) :
    trimSlash (r ++ '/' :: n) = trimSlash r ++ '/' :: n := by
  cases r with
  | nil => exact absurd rfl hr
  | cons c cs =>
    by_cases hc : c = '/'
    · subst hc
      rfl
    · have h1 : ∀ l : List Char, trimSlash (c :: l) = c :: l := by
        intro l
        unfold trimSlash
        split
        · rename_i heq
          simp only [List.cons.injEq] at heq
          exact absurd heq.1 hc
        · rfl
      rw [List.cons_append, h1, h1, List.cons_append]

theorem Join_data (cur n : String) :
    (Join cur n).data = if cur.data = ['/'] then cur.data ++ n.data
      else cur.data ++ '/' :: n.data := by
  unfold Join
  have hiff : cur = "/" ↔ cur.data = ['/'] := by
    constructor
    · intro h; rw [h]
    · intro h; exact String.ext h
  by_cases h : cur = "/"
  · rw [if_pos h, if_pos (hiff.1 h)]
    simp
  · rw [if_neg h, if_neg (fun e => h (hiff.2 e))]
    simp

theorem RelPath.root (dir : String) : RelPath dir dir [] :=
  ⟨[], by simp, Or.inl ⟨rfl, rfl⟩⟩

theorem RelPath.join {dir cur : String} {ms : List String} {n : String}
    (h : RelPath dir cur ms) (hn : validName n = true) :
    RelPath dir (Join cur n) (ms ++ [n]) := by
  obtain ⟨hne, hslash⟩ := (validName_iff n).1 hn
  obtain ⟨r, hcur, hr⟩ := h
  rcases hr with ⟨hms, hr⟩ | ⟨hms, hall, hsplit⟩
  · subst hms
    subst hr
    rw [List.append_nil] at hcur
    by_cases hroot : cur.data = ['/']
    · refine ⟨n.data, ?_, Or.inr ⟨by simp, ?_, ?_⟩⟩
      · rw [Join_data, if_pos hroot, hcur]
      · simpa using hne
      · rw [trimSlash_of_valid _ hslash, splitSlash_of_not_mem _ hslash]
        rfl
    · refine ⟨'/' :: n.data, ?_, Or.inr ⟨by simp, ?_, ?_⟩⟩
      · rw [Join_data, if_neg hroot, hcur]
      · simpa using hne
      · show splitSlash n.data = _
        rw [splitSlash_of_not_mem _ hslash]
        rfl
  · have hbad : trimSlash r ≠ [] := by
      intro he
      rw [he] at hsplit
      cases ms with
      | nil => exact hms rfl
      | cons m ms' =>
        simp only [splitSlash, List.map_cons, List.cons.injEq] at hsplit
        exact hall m (by simp) hsplit.1.symm
    have hrne : r ≠ [] := by
      intro he
      rw [he] at hbad
      exact hbad rfl
    have hroot : cur.data ≠ ['/'] := by
      intro he
      rw [he] at hcur
      cases hd : dir.data with
      | nil =>
        rw [hd] at hcur
        simp only [List.nil_append] at hcur
        rw [← hcur] at hbad
        exact hbad rfl
      | cons c cs =>
        rw [hd] at hcur
        simp only [List.cons_append, List.cons.injEq] at hcur
        have : r = [] := by
          have := hcur.2
          cases cs with
          | nil => simpa using this.symm
          | cons _ _ => simp at this
        exact hrne this
    refine ⟨r ++ '/' :: n.data, ?_, Or.inr ⟨by simp, ?_, ?_⟩⟩
    · rw [Join_data, if_neg hroot, hcur, List.append_assoc]
    · intro m hm
      rcases List.mem_append.1 hm with h1 | h1
      · exact hall m h1
      · simp only [List.mem_singleton] at h1
        rw [h1]
        exact hne
    · rw [trimSlash_append r _ hrne, splitSlash_append _ _ hslash, hsplit]
      simp

theorem RelPath.split {dir cur : String} {ms : List String}
    (h : RelPath dir cur ms) (hms : ms ≠ []) :
    Split (TrimPrefix (TrimPrefix cur dir) "/") = ms := by
  obtain ⟨r, hcur, hr⟩ := h
  rcases hr with ⟨h0, _⟩ | ⟨_, _, hsplit⟩
  · exact absurd h0 hms
  · have e1 : cur = String.mk (dir.data ++ r) := String.ext hcur
    have e2 : dir = String.mk dir.data := rfl
    rw [e1]
    conv_lhs => rw [e2]
    rw [TrimPrefix_append, TrimPrefix_slash]
    simp only [Split, hsplit, List.map_map]
    conv_rhs => rw [← List.map_id ms]
    apply List.map_congr_left
    intro m _
    rfl

theorem Split_root (dir : String) :
    Split (TrimPrefix (TrimPrefix dir dir) "/") = [""] := by
  have e2 : dir = String.mk dir.data := rfl
  have e1 : TrimPrefix dir dir = String.mk [] := by
    have := TrimPrefix_append dir.data []
    rw [List.append_nil] at this
    exact this
  rw [e1, TrimPrefix_slash]
  rfl


/-! ## Trees -/

mutual
theorem Entry.induction_entry {P : Entry → Prop} {Q : List Entry → Prop}
    (hfile : ∀ n, P (Entry.file n)) (hdir : ∀ n ok es, Q es → P (Entry.dir n ok es))
    (hnil : Q []) (hcons : ∀ e es, P e → Q es → Q (e :: es)) : ∀ e, P e
  | Entry.file n => hfile n
  | Entry.dir n ok es => hdir n ok es (Entry.induction_list hfile hdir hnil hcons es)
theorem Entry.induction_list {P : Entry → Prop} {Q : List Entry → Prop}
    (hfile : ∀ n, P (Entry.file n)) (hdir : ∀ n ok es, Q es → P (Entry.dir n ok es))
    (hnil : Q []) (hcons : ∀ e es, P e → Q es → Q (e :: es)) : ∀ es, Q es
  | [] => hnil
  | e :: es => hcons e es (Entry.induction_entry hfile hdir hnil hcons e)
      (Entry.induction_list hfile hdir hnil hcons es)
end

/-- Induction over the entries of a directory, with the property of the
listing of every directory below at hand. -/
theorem Entry.list_induction {Q : List Entry → Prop} (hnil : Q [])
    (hfile : ∀ n es, Q es → Q (Entry.file n :: es))
    (hdir : ∀ n ok sub es, Q sub → Q es → Q (Entry.dir n ok sub :: es)) : ∀ es, Q es := by
  apply Entry.induction_list (P := fun e => ∀ n ok sub, e = Entry.dir n ok sub → Q sub) (Q := Q)
  · intro n m ok sub h
    cases h
  · intro n ok es h m ok1 sub heq
    cases heq
    exact h
  · exact hnil
  · intro e es he hes
    cases e with
    | file n => exact hfile n es hes
    | dir n ok sub => exact hdir n ok sub es (he n ok sub rfl) hes

theorem loopSends_eq (ignorer : DirFilter) (fileFilter : FileFilter) :
    ∀ (files : List Entry) (dir : String),
      walkSub.loopSends ignorer fileFilter dir files
        = ((visibleFilesIn ignorer dir files).filter (fun x => fileFilter x.1)).map Prod.snd := by
  apply Entry.list_induction
  · intro dir
    simp [walkSub.loopSends, visibleFilesIn]
  · intro n es ih dir
    simp only [walkSub.loopSends, visibleFilesIn, Entry.IsDir, Entry.name, ih dir]
    by_cases h : fileFilter n = true <;> simp [h]
  · intro n ok sub es ihsub ih dir
    simp only [walkSub.loopSends, visibleFilesIn, Entry.IsDir, Entry.name, ih dir, if_true,
      walkSub.sends, visibleFiles]
    by_cases hi : ignorer n = true
    · simp [hi]
    · cases ok with
      | true => simp [hi, ihsub]
      | false => simp [hi]

theorem Visible.mono {ignorer : DirFilter} {dir : String} {files more : List Entry}
    {name p : String} (hsub : ∀ f ∈ files, f ∈ more) (h : Visible ignorer dir files name p) :
    Visible ignorer dir more name p := by
  cases h with
  | file hmem => exact Visible.file (hsub _ hmem)
  | dir hmem hign hbelow => exact Visible.dir (hsub _ hmem) hign hbelow

theorem visible_of_mem (ignorer : DirFilter) :
    ∀ (files : List Entry) (dir : String) (x : String × String),
      x ∈ visibleFilesIn ignorer dir files → Visible ignorer dir files x.1 x.2 := by
  apply Entry.list_induction
  · intro dir x h
    simp [visibleFilesIn] at h
  · intro n es ih dir x h
    simp only [visibleFilesIn, Entry.IsDir, Entry.name, Bool.false_eq_true, if_false,
      List.singleton_append, List.mem_cons] at h
    rcases h with h | h
    · subst h
      exact Visible.file (by simp)
    · exact (ih dir x h).mono (fun f hf => List.mem_cons_of_mem _ hf)
  · intro n ok sub es ihsub ih dir x h
    simp only [visibleFilesIn, Entry.IsDir, Entry.name, if_true, List.mem_append] at h
    rcases h with h | h
    · by_cases hi : ignorer n = true
      · simp [hi] at h
      · cases ok with
        | false => simp [hi, visibleFiles] at h
        | true =>
          simp only [hi, visibleFiles, if_true, Bool.not_eq_true, Bool.not_false] at h
          have hi' : ignorer n = false := by simpa using hi
          exact Visible.dir (List.mem_cons_self _ _) hi' (ihsub _ x h)
    · exact (ih dir x h).mono (fun f hf => List.mem_cons_of_mem _ hf)

theorem mem_visibleFilesIn_file (ignorer : DirFilter) (dir name : String) :
    ∀ files : List Entry, Entry.file name ∈ files →
      (name, Join dir name) ∈ visibleFilesIn ignorer dir files
  | [], h => by simp at h
  | f :: files, h => by
    simp only [visibleFilesIn, List.mem_append]
    rcases List.mem_cons.1 h with h | h
    · left
      subst h
      simp [Entry.IsDir, Entry.name]
    · right
      exact mem_visibleFilesIn_file ignorer dir name files h

theorem mem_visibleFilesIn_dir (ignorer : DirFilter) (dir sub : String) (below : List Entry)
    (x : String × String) (hign : ignorer sub = false)
    (hx : x ∈ visibleFilesIn ignorer (Join dir sub) below) :
    ∀ files : List Entry, Entry.dir sub true below ∈ files →
      x ∈ visibleFilesIn ignorer dir files
  | [], h => by simp at h
  | f :: files, h => by
    simp only [visibleFilesIn, List.mem_append]
    rcases List.mem_cons.1 h with h | h
    · left
      subst h
      simpa [Entry.IsDir, Entry.name, hign, visibleFiles] using hx
    · right
      exact mem_visibleFilesIn_dir ignorer dir sub below x hign hx files h

theorem mem_of_visible {ignorer : DirFilter} {dir : String} {files : List Entry}
    {name p : String} (h : Visible ignorer dir files name p) :
    (name, p) ∈ visibleFilesIn ignorer dir files := by
  induction h with
  | file hmem => exact mem_visibleFilesIn_file ignorer _ _ _ hmem
  | dir hmem hign _ ih => exact mem_visibleFilesIn_dir ignorer _ _ _ _ hign ih _ hmem

theorem mem_visibleFilesIn_iff (ignorer : DirFilter) (dir : String) (files : List Entry)
    (name p : String) :
    (name, p) ∈ visibleFilesIn ignorer dir files ↔ Visible ignorer dir files name p :=
  ⟨visible_of_mem ignorer files dir (name, p), mem_of_visible⟩

theorem mem_loopSends_iff (ignorer : DirFilter) (fileFilter : FileFilter) (dir : String)
    (files : List Entry) (p : String) :
    p ∈ walkSub.loopSends ignorer fileFilter dir files
      ↔ ∃ name, Visible ignorer dir files name p ∧ fileFilter name = true := by
  rw [loopSends_eq]
  simp only [List.mem_map, List.mem_filter, Prod.exists, exists_and_right, exists_eq_right]
  constructor
  · rintro ⟨name, hmem, hf⟩
    exact ⟨name, (mem_visibleFilesIn_iff _ _ _ _ _).1 hmem, hf⟩
  · rintro ⟨name, hv, hf⟩
    exact ⟨name, (mem_visibleFilesIn_iff _ _ _ _ _).2 hv, hf⟩


/-! ## The sequential walker -/

theorem walkFn_file (dir : String) (ignorer : DirFilter) (fileFilter : FileFilter)
    (now : String) (rv : List String) :
    ElicitFilesFrom0.walkFn dir ignorer fileFilter now false false rv
      = (rv ++ (if fileFilter now then [now] else []), none) := by
  by_cases h : fileFilter now = true <;> simp [ElicitFilesFrom0.walkFn, h]

theorem walkFn_err (dir : String) (ignorer : DirFilter) (fileFilter : FileFilter)
    (now : String) (rv : List String) :
    ElicitFilesFrom0.walkFn dir ignorer fileFilter now true true rv
      = (rv, some WalkError.other) := by
  simp [ElicitFilesFrom0.walkFn]

theorem walkFn_root (dir : String) (ignorer : DirFilter) (fileFilter : FileFilter)
    (rv : List String) :
    ElicitFilesFrom0.walkFn dir ignorer fileFilter dir true false rv
      = (rv, if ignorer "" then some WalkError.SkipDir else none) := by
  by_cases h : ignorer "" = true <;> simp [ElicitFilesFrom0.walkFn, Split_root, h]

theorem walkFn_dir {dir cur : String} {ms : List String} (ignorer : DirFilter)
    (fileFilter : FileFilter) {n : String} (hrel : RelPath dir cur ms)
    (hn : validName n = true) (rv : List String) :
    ElicitFilesFrom0.walkFn dir ignorer fileFilter (Join cur n) true false rv
      = (rv, if ignorer n then some WalkError.SkipDir else none) := by
  have hs := (hrel.join hn).split (by simp)
  by_cases h : ignorer n = true <;> simp [ElicitFilesFrom0.walkFn, hs, h]

theorem walkNames_cons_none
    {walkFn : String → Bool → Bool → List String → List String × Option WalkError}
    {path : String} {e : Entry} {es : List Entry} {rv rv1 : List String}
    (h : filepath.walk walkFn (Join path e.name) e rv = (rv1, none)) :
    filepath.walkNames walkFn path (e :: es) rv = filepath.walkNames walkFn path es rv1 := by
  rw [filepath.walkNames, h]

theorem walkNames_cons_skip
    {walkFn : String → Bool → Bool → List String → List String × Option WalkError}
    {path : String} {e : Entry} {es : List Entry} {rv rv1 : List String}
    (h : filepath.walk walkFn (Join path e.name) e rv = (rv1, some WalkError.SkipDir))
    (hd : e.IsDir = true) :
    filepath.walkNames walkFn path (e :: es) rv = filepath.walkNames walkFn path es rv1 := by
  rw [filepath.walkNames, h]
  simp [hd]

theorem walkNames_cons_other
    {walkFn : String → Bool → Bool → List String → List String × Option WalkError}
    {path : String} {e : Entry} {es : List Entry} {rv rv1 : List String}
    (h : filepath.walk walkFn (Join path e.name) e rv = (rv1, some WalkError.other)) :
    filepath.walkNames walkFn path (e :: es) rv = (rv1, some WalkError.other) := by
  rw [filepath.walkNames, h]

theorem walk_dir {walkFn : String → Bool → Bool → List String → List String × Option WalkError}
    {path n : String} {ok : Bool} {es : List Entry} {rv rv1 : List String}
    {st : Option WalkError} (h : walkFn path true (!ok) rv = (rv1, st)) :
    filepath.walk walkFn path (Entry.dir n ok es) rv
      = if !ok || st.isSome then (rv1, st) else filepath.walkNames walkFn path es rv1 := by
  rw [filepath.walk, h]

/-- The paths `ElicitFilesFrom0` returns for the entries of a directory when no
listing fails: those of the reachable files whose path the filter accepts. -/
theorem walkNames_spec (dir : String) (ignorer : DirFilter) (fileFilter : FileFilter) :
    ∀ (es : List Entry) (cur : String) (ms : List String) (rv : List String),
      RelPath dir cur ms → Entry.namesValidList es = true →
      ∃ L st, filepath.walkNames (ElicitFilesFrom0.walkFn dir ignorer fileFilter) cur es rv
          = (rv ++ L, st) ∧ st ≠ some WalkError.SkipDir ∧
        (∀ p ∈ L, p ∈ ((visibleFilesIn ignorer cur es).filter
          (fun x => fileFilter x.2)).map Prod.snd) ∧
        (Entry.listableList es = true →
          L = ((visibleFilesIn ignorer cur es).filter (fun x => fileFilter x.2)).map Prod.snd
            ∧ st = none) := by
  apply Entry.list_induction
  · intro cur ms rv _ _
    exact ⟨[], none, by simp [filepath.walkNames], by simp, by simp, by simp [visibleFilesIn]⟩
  · intro n es ih cur ms rv hrel hvalid
    simp only [Entry.namesValidList, Entry.namesValid, Bool.and_eq_true, Bool.true_and] at hvalid
    have hw : filepath.walk (ElicitFilesFrom0.walkFn dir ignorer fileFilter)
        (Join cur (Entry.file n).name) (Entry.file n) rv
        = (rv ++ (if fileFilter (Join cur n) then [Join cur n] else []), none) := by
      rw [filepath.walk, walkFn_file]
      rfl
    obtain ⟨L, st, hL, hst, hsub, hfull⟩ :=
      ih cur ms (rv ++ (if fileFilter (Join cur n) then [Join cur n] else [])) hrel hvalid.2
    refine ⟨(if fileFilter (Join cur n) then [Join cur n] else []) ++ L, st, ?_, hst, ?_, ?_⟩
    · rw [walkNames_cons_none hw]
      simp only [hL, List.append_assoc]
    · intro p hp
      simp only [visibleFilesIn, Entry.IsDir, Entry.name, Bool.false_eq_true, if_false,
        List.singleton_append, List.filter_cons, List.mem_map]
      rcases List.mem_append.1 hp with hp | hp
      · by_cases hf : fileFilter (Join cur n) = true
        · simp only [hf, if_true, List.mem_singleton] at hp
          exact ⟨(n, Join cur n), by simp [hf], hp.symm⟩
        · simp [hf] at hp
      · obtain ⟨x, hx, hxp⟩ := List.mem_map.1 (hsub p hp)
        refine ⟨x, ?_, hxp⟩
        split
        · exact List.mem_cons_of_mem _ hx
        · exact hx
    · intro hl
      simp only [Entry.listableList, Entry.listable, Bool.true_and] at hl
      obtain ⟨e1, e2⟩ := hfull hl
      refine ⟨?_, e2⟩
      rw [e1]
      simp only [visibleFilesIn, Entry.IsDir, Entry.name, Bool.false_eq_true, if_false,
        List.singleton_append, List.filter_cons]
      by_cases hf : fileFilter (Join cur n) = true <;> simp [hf]
  · intro n ok sub es ihsub ih cur ms rv hrel hvalid
    simp only [Entry.namesValidList, Entry.namesValid, Bool.and_eq_true] at hvalid
    obtain ⟨hn, hvsub, hves⟩ := hvalid
    simp only [Entry.name] at hn
    cases ok with
    | false =>
      have hw : filepath.walk (ElicitFilesFrom0.walkFn dir ignorer fileFilter)
          (Join cur (Entry.dir n false sub).name) (Entry.dir n false sub) rv
          = (rv, some WalkError.other) := by
        rw [walk_dir (walkFn_err dir ignorer fileFilter _ rv)]
        rfl
      refine ⟨[], some WalkError.other, ?_, by simp, by simp, ?_⟩
      · rw [walkNames_cons_other hw]
        simp
      · intro hl
        simp [Entry.listableList, Entry.listable] at hl
    | true =>
      by_cases hi : ignorer n = true
      · have hw : filepath.walk (ElicitFilesFrom0.walkFn dir ignorer fileFilter)
            (Join cur (Entry.dir n true sub).name) (Entry.dir n true sub) rv
            = (rv, some WalkError.SkipDir) := by
          have := walkFn_dir ignorer fileFilter hrel hn rv
          rw [hi, if_pos rfl] at this
          rw [Entry.name, walk_dir this]
          rfl
        obtain ⟨L, st, hL, hst, hsub, hfull⟩ := ih cur ms rv hrel hves
        refine ⟨L, st, ?_, hst, ?_, ?_⟩
        · rw [walkNames_cons_skip hw rfl]
          exact hL
        · intro p hp
          simpa [visibleFilesIn, Entry.IsDir, Entry.name, hi] using hsub p hp
        · intro hl
          simp only [Entry.listableList, Entry.listable, Bool.true_and, Bool.and_eq_true] at hl
          simpa [visibleFilesIn, Entry.IsDir, Entry.name, hi] using hfull hl.2
      · have hi' : ignorer n = false := by simpa using hi
        obtain ⟨L1, st1, hL1, hst1, hsub1, hfull1⟩ :=
          ihsub (Join cur n) (ms ++ [n]) rv (hrel.join hn) hvsub
        have hw : filepath.walk (ElicitFilesFrom0.walkFn dir ignorer fileFilter)
            (Join cur (Entry.dir n true sub).name) (Entry.dir n true sub) rv
            = (rv ++ L1, st1) := by
          have := walkFn_dir ignorer fileFilter hrel hn rv
          rw [hi', if_neg (by simp)] at this
          rw [Entry.name, walk_dir this]
          simpa using hL1
        have hchunk : visibleFilesIn ignorer cur (Entry.dir n true sub :: es)
            = visibleFilesIn ignorer (Join cur n) sub ++ visibleFilesIn ignorer cur es := by
          simp [visibleFilesIn, Entry.IsDir, Entry.name, hi', visibleFiles]
        cases st1 with
        | some w =>
          cases w with
          | SkipDir => exact absurd rfl hst1
          | other =>
            refine ⟨L1, some WalkError.other, ?_, by simp, ?_, ?_⟩
            · rw [walkNames_cons_other hw]
            · intro p hp
              rw [hchunk, List.filter_append, List.map_append]
              exact List.mem_append_left _ (hsub1 p hp)
            · intro hl
              simp only [Entry.listableList, Entry.listable, Bool.true_and,
                Bool.and_eq_true] at hl
              have := (hfull1 hl.1).2
              simp at this
        | none =>
          obtain ⟨L, st, hL, hst, hsub, hfull⟩ := ih cur ms (rv ++ L1) hrel hves
          refine ⟨L1 ++ L, st, ?_, hst, ?_, ?_⟩
          · rw [walkNames_cons_none hw]
            simp only [hL, List.append_assoc]
          · intro p hp
            rw [hchunk, List.filter_append, List.map_append]
            rcases List.mem_append.1 hp with hp | hp
            · exact List.mem_append_left _ (hsub1 p hp)
            · exact List.mem_append_right _ (hsub p hp)
          · intro hl
            simp only [Entry.listableList, Entry.listable, Bool.true_and,
              Bool.and_eq_true] at hl
            obtain ⟨e1, _⟩ := hfull1 hl.1
            obtain ⟨e2, e3⟩ := hfull hl.2
            refine ⟨?_, e3⟩
            rw [hchunk, List.filter_append, List.map_append, e1, e2]


/-! ## Sorted listings -/

theorem Entry.sorted_name (e : Entry) : e.sorted.name = e.name := by
  cases e <;> simp [Entry.sorted, Entry.name]

theorem Entry.sorted_IsDir (e : Entry) : e.sorted.IsDir = e.IsDir := by
  cases e <;> simp [Entry.sorted, Entry.IsDir]

theorem namesValidList_insert (x : Entry) :
    ∀ l : List Entry, Entry.namesValidList (Entry.insertByName x l)
      = Entry.namesValidList (x :: l)
  | [] => rfl
  | y :: l => by
    simp only [Entry.insertByName]
    split
    · rfl
    · simp only [Entry.namesValidList, namesValidList_insert x l]
      cases validName y.name <;> cases validName x.name <;> cases Entry.namesValid y <;>
        cases Entry.namesValid x <;> simp

theorem listableList_insert (x : Entry) :
    ∀ l : List Entry, Entry.listableList (Entry.insertByName x l)
      = Entry.listableList (x :: l)
  | [] => rfl
  | y :: l => by
    simp only [Entry.insertByName]
    split
    · rfl
    · simp only [Entry.listableList, listableList_insert x l]
      cases Entry.listable y <;> cases Entry.listable x <;> simp

theorem visibleFilesIn_insert (ignorer : DirFilter) (dir : String) (x : Entry) :
    ∀ l : List Entry, (visibleFilesIn ignorer dir (Entry.insertByName x l)).Perm
      (visibleFilesIn ignorer dir (x :: l))
  | [] => List.Perm.refl _
  | y :: l => by
    simp only [Entry.insertByName]
    split
    · exact List.Perm.refl _
    · have ih := visibleFilesIn_insert ignorer dir x l
      simp only [visibleFilesIn] at ih ⊢
      refine (List.Perm.append_left _ ih).trans ?_
      simp only [← List.append_assoc]
      exact List.Perm.append_right _ List.perm_append_comm

theorem sortedList_spec (ignorer : DirFilter) :
    ∀ es : List Entry,
      Entry.namesValidList (Entry.sortedList es) = Entry.namesValidList es ∧
      Entry.listableList (Entry.sortedList es) = Entry.listableList es ∧
      ∀ dir, (visibleFilesIn ignorer dir (Entry.sortedList es)).Perm
        (visibleFilesIn ignorer dir es) := by
  apply Entry.list_induction
  · exact ⟨rfl, rfl, fun _ => List.Perm.refl _⟩
  · intro n es ⟨h1, h2, h3⟩
    refine ⟨?_, ?_, ?_⟩
    · rw [Entry.sortedList, namesValidList_insert]
      simp only [Entry.namesValidList, Entry.sorted, h1]
    · rw [Entry.sortedList, listableList_insert]
      simp only [Entry.listableList, Entry.sorted, h2]
    · intro dir
      rw [Entry.sortedList]
      refine (visibleFilesIn_insert ignorer dir _ _).trans ?_
      simp only [visibleFilesIn, Entry.sorted]
      exact List.Perm.append_left _ (h3 dir)
  · intro n ok sub es ⟨s1, s2, s3⟩ ⟨h1, h2, h3⟩
    refine ⟨?_, ?_, ?_⟩
    · rw [Entry.sortedList, namesValidList_insert]
      simp only [Entry.namesValidList, Entry.sorted, Entry.namesValid, Entry.name, h1, s1]
    · rw [Entry.sortedList, listableList_insert]
      simp only [Entry.listableList, Entry.sorted, Entry.listable, h2, s2]
    · intro dir
      rw [Entry.sortedList]
      refine (visibleFilesIn_insert ignorer dir _ _).trans ?_
      simp only [visibleFilesIn, Entry.sorted, Entry.IsDir, Entry.name, if_true, visibleFiles]
      refine List.Perm.append ?_ (h3 dir)
      by_cases hi : ignorer n = true
      · simp [hi]
      · cases ok with
        | false => simp [hi]
        | true =>
          simp only [hi, Bool.not_eq_true, Bool.not_false, if_true]
          simpa [hi] using s3 (Join dir n)

/-! ## The results of the two walkers -/

/-- The slice `ElicitFilesFrom0` returns for a listable root that the ignorer
does not ignore under the empty name. -/
theorem ElicitFilesFrom0_eq (dir n : String) (es : List Entry) (ignorer : DirFilter)
    (fileFilter : FileFilter) (hroot : ignorer "" = false) :
    ElicitFilesFrom0 dir (Entry.dir n true es) ignorer fileFilter
      = (filepath.walkNames (ElicitFilesFrom0.walkFn dir ignorer fileFilter) dir
          (Entry.sortedList es) []).1 := by
  have h := walkFn_root dir ignorer fileFilter []
  rw [hroot] at h
  simp only [ElicitFilesFrom0, Entry.sorted]
  rw [@walk_dir _ _ _ true _ _ _ _ h]
  simp

theorem ElicitFilesFrom0_unlistable (dir n : String) (es : List Entry) (ignorer : DirFilter)
    (fileFilter : FileFilter) :
    ElicitFilesFrom0 dir (Entry.dir n false es) ignorer fileFilter = [] := by
  simp only [ElicitFilesFrom0, Entry.sorted]
  rw [@walk_dir _ _ _ false _ _ _ _ (walkFn_err dir ignorer fileFilter dir [])]
  simp

theorem ElicitFilesFrom0_ignored (dir n : String) (ok : Bool) (es : List Entry)
    (ignorer : DirFilter) (fileFilter : FileFilter) (hroot : ignorer "" = true) :
    ElicitFilesFrom0 dir (Entry.dir n ok es) ignorer fileFilter = [] := by
  cases ok with
  | false => exact ElicitFilesFrom0_unlistable dir n es ignorer fileFilter
  | true =>
    have h := walkFn_root dir ignorer fileFilter []
    rw [hroot] at h
    simp only [ElicitFilesFrom0, Entry.sorted]
    rw [@walk_dir _ _ _ true _ _ _ _ h]
    simp

/-- Every path `ElicitFilesFrom0` returns is the path of a reachable file that
the filter accepts on its path. -/
theorem ElicitFilesFrom0_sound (dir n : String) (ok : Bool) (es : List Entry)
    (ignorer : DirFilter) (fileFilter : FileFilter)
    (hvalid : Entry.namesValidList es = true) (p : String)
    (hp : p ∈ ElicitFilesFrom0 dir (Entry.dir n ok es) ignorer fileFilter) :
    ∃ name, Visible ignorer dir es name p ∧ fileFilter p = true := by
  cases ok with
  | false => simp [ElicitFilesFrom0_unlistable] at hp
  | true =>
    cases hroot : ignorer "" with
    | true => simp [ElicitFilesFrom0_ignored _ _ _ _ _ _ hroot] at hp
    | false =>
      rw [ElicitFilesFrom0_eq dir n es ignorer fileFilter hroot] at hp
      obtain ⟨s1, _, s3⟩ := sortedList_spec ignorer es
      obtain ⟨L, st, hL, _, hsub, _⟩ := walkNames_spec dir ignorer fileFilter
        (Entry.sortedList es) dir [] [] (RelPath.root dir) (by rw [s1]; exact hvalid)
      rw [hL] at hp
      simp only [List.nil_append] at hp
      obtain ⟨x, hx, hxp⟩ := List.mem_map.1 (hsub p hp)
      obtain ⟨hx1, hx2⟩ := List.mem_filter.1 hx
      have hmem := (s3 dir).subset hx1
      refine ⟨x.1, ?_, ?_⟩
      · rw [← hxp]
        exact visible_of_mem ignorer es dir x hmem
      · rw [← hxp]
        exact hx2

/-- When no listing fails, `ElicitFilesFrom0` returns the reachable files whose
path the filter accepts. -/
theorem ElicitFilesFrom0_perm (dir n : String) (es : List Entry)
    (ignorer : DirFilter) (fileFilter : FileFilter) (hroot : ignorer "" = false)
    (hvalid : Entry.namesValidList es = true) (hlist : Entry.listableList es = true) :
    (ElicitFilesFrom0 dir (Entry.dir n true es) ignorer fileFilter).Perm
      (((visibleFilesIn ignorer dir es).filter (fun x => fileFilter x.2)).map Prod.snd) := by
  rw [ElicitFilesFrom0_eq dir n es ignorer fileFilter hroot]
  obtain ⟨s1, s2, s3⟩ := sortedList_spec ignorer es
  obtain ⟨L, st, hL, _, _, hfull⟩ := walkNames_spec dir ignorer fileFilter
    (Entry.sortedList es) dir [] [] (RelPath.root dir) (by rw [s1]; exact hvalid)
  obtain ⟨e1, _⟩ := hfull (by rw [s2]; exact hlist)
  rw [hL, List.nil_append, e1]
  exact ((s3 dir).filter _).map _

namespace ElicitFilesFrom

/-- In the state `ElicitFilesFrom` returns in, the slice holds every path sent,
in the order sent, and no traversal unit is left. -/
theorem Invariant.at_return {ignorer : DirFilter} {fileFilter : FileFilter} {concurrent : Nat}
    {dir : String} {root : Entry} {s : State}
    (inv : Invariant ignorer fileFilter concurrent dir root s)
    (hret : s.main = Main.returned) :
    s.units = [] ∧ s.fileReadCh = [] ∧ s.rvs = s.sent ∧
      s.rvs.Perm (walkSub.sends ignorer fileFilter dir root) := by
  have hu : s.units = [] := inv.waited (by simp [hret])
  have hch : s.fileReadCh = [] := inv.drained hret
  have hrvs : s.rvs = s.sent := by
    have := inv.collected
    rwa [hch, List.append_nil] at this
  refine ⟨hu, hch, hrvs, ?_⟩
  have hp := inv.paths
  rw [hu] at hp
  simp only [List.map_nil, List.sum_nil, add_zero] at hp
  rw [hrvs]
  exact Multiset.coe_eq_coe.1 hp

end ElicitFilesFrom

/-- Whatever `ElicitFilesFrom` returns is, up to order, what the traversal units
send. -/
theorem ElicitFilesFrom_perm {dir : String} {root : Entry} {ignorer : DirFilter}
    {fileFilter : FileFilter} {concurrent : Nat} {rvs : List String}
    (h : ElicitFilesFrom dir root ignorer fileFilter concurrent rvs) :
    rvs.Perm (walkSub.sends ignorer fileFilter dir root) := by
  obtain ⟨sched, s, hrun, hret, hrvs⟩ := h
  rw [← hrvs]
  exact ((ElicitFilesFrom.Invariant.of_reachable hrun).at_return hret).2.2.2

/-- With a semaphore of capacity at least one, `ElicitFilesFrom` can return. -/
theorem ElicitFilesFrom_returns (dir : String) (root : Entry) (ignorer : DirFilter)
    (fileFilter : FileFilter) {concurrent : Nat} (hN : 1 ≤ concurrent) :
    ∃ rvs, ElicitFilesFrom dir root ignorer fileFilter concurrent rvs := by
  obtain ⟨sched, s, hrun, hret⟩ := ElicitFilesFrom.Invariant.completes hN _ _ (Nat.le_refl _)
    (ElicitFilesFrom.Invariant.initial ignorer fileFilter concurrent dir root)
  exact ⟨s.rvs, sched, s, hrun, hret, rfl⟩

theorem mem_ElicitFilesFrom_iff {dir n : String} {es : List Entry} {ignorer : DirFilter}
    {fileFilter : FileFilter} {concurrent : Nat} {rvs : List String}
    (h : ElicitFilesFrom dir (Entry.dir n true es) ignorer fileFilter concurrent rvs)
    (p : String) :
    p ∈ rvs ↔ ∃ name, Visible ignorer dir es name p ∧ fileFilter name = true := by
  rw [(ElicitFilesFrom_perm h).mem_iff]
  simp only [walkSub.sends, if_true]
  exact mem_loopSends_iff ignorer fileFilter dir es p

/-! ## Path components -/

theorem namesValid_of_mem : ∀ (es : List Entry) (e : Entry), e ∈ es →
    Entry.namesValidList es = true → validName e.name = true ∧ e.namesValid = true
  | [], e, h, _ => by simp at h
  | f :: es, e, h, hv => by
    simp only [Entry.namesValidList, Bool.and_eq_true] at hv
    rcases List.mem_cons.1 h with h | h
    · subst h
      exact ⟨hv.1, hv.2.1⟩
    · exact namesValid_of_mem es e h hv.2.2

/-- The path of a reachable file is the root followed by the names of the
directories on the way, none of them ignored, and the base name. -/
theorem Visible.relPath {ignorer : DirFilter} {dir cur : String} {es : List Entry}
    {name p : String} (h : Visible ignorer cur es name p) :
    ∀ ms : List String, RelPath dir cur ms → Entry.namesValidList es = true →
      ∃ more : List String, RelPath dir p (ms ++ more ++ [name]) ∧
        ∀ m ∈ more, ignorer m = false := by
  induction h with
  | file hmem =>
    intro ms hrel hv
    have hn := (namesValid_of_mem _ _ hmem hv).1
    exact ⟨[], by simpa using hrel.join hn, by simp⟩
  | dir hmem hign _ ih =>
    intro ms hrel hv
    obtain ⟨hn, hsub⟩ := namesValid_of_mem _ _ hmem hv
    obtain ⟨more, hmore, hall⟩ := ih (ms ++ [_]) (hrel.join hn) hsub
    refine ⟨_ :: more, by simpa using hmore, ?_⟩
    intro m hm
    rcases List.mem_cons.1 hm with hm | hm
    · rw [hm]; exact hign
    · exact hall m hm

theorem Visible.dirComponents_not_ignored {ignorer : DirFilter} {dir : String}
    {es : List Entry} {name p : String} (h : Visible ignorer dir es name p)
    (hv : Entry.namesValidList es = true) :
    ∀ m ∈ dirComponents dir p, ignorer m = false := by
  obtain ⟨more, hrel, hall⟩ := @Visible.relPath _ dir _ _ _ _ h [] (RelPath.root dir) hv
  have hs := hrel.split (by simp)
  unfold dirComponents
  rw [hs]
  simpa using hall


/-! ## The claims -/

/-- C4: `stdIgnorer.IsDirIgnored` does not ignore `.svn`: the empty `case ".svn":`
does not fall through to `return true`, so the predicate is true for `.git`
alone. -/
theorem stdIgnorer_ignores_git_only :
    stdIgnorer.IsDirIgnored ".svn" = false ∧ stdIgnorer.IsDirIgnored ".git" = true ∧
      ∀ name : String, stdIgnorer.IsDirIgnored name = true ↔ name = ".git" := by
  refine ⟨by decide, by decide, ?_⟩
  intro name
  unfold stdIgnorer.IsDirIgnored
  by_cases h1 : name = ".svn"
  · subst h1
    decide
  · by_cases h2 : name = ".git" <;> simp [h1, h2]

/-- C10: with the suffix `tar.gz` the pattern is `\.tar.gz$`, whose second dot
matches any character: in a directory holding only `a.tarxgz`, a name that
does not end in `.tar.gz`, `FindFirstFileWithSuffix` returns that file and no
error. -/
theorem FindFirstFileWithSuffix_pattern :
    FindFirstFileWithSuffix "/r" (Entry.dir "r" true [Entry.file "a.tarxgz"]) "tar.gz"
        = some (Except.ok "/r/a.tarxgz") ∧
      (".tar.gz".data).isSuffixOf "a.tarxgz".data = false ∧
      FindFirstFileWithSuffix "/r" (Entry.dir "r" true [Entry.file "main.go"]) "go"
        = some (Except.ok "/r/main.go") := by
  refine ⟨by rfl, by decide, by rfl⟩


theorem sampleSchedule_run :
    ElicitFilesFrom.run StdIgnorer AllFiles 2 (ElicitFilesFrom.init "/r" sampleTree)
      sampleSchedule = some sampleReturn := by
  rfl

namespace ElicitFilesFrom

theorem step_of_no_units {ignorer : DirFilter} {fileFilter : FileFilter} {concurrent : Nat}
    {s s1 : State} {a : Action} (hu : s.units = [])
    (h : step ignorer fileFilter concurrent s a = some s1) :
    s1.units = [] ∧ s1.wg = s.wg ∧ s1.sent = s.sent ∧ s1.semaphoreChan = s.semaphoreChan := by
  cases a with
  | walker i => simp [ElicitFilesFrom.step, ElicitFilesFrom.stepWalker, hu] at h
  | receive =>
    simp only [ElicitFilesFrom.step] at h
    split at h
    · split at h
      · simp only [Option.some.injEq] at h
        subst h
        exact ⟨hu, rfl, rfl, rfl⟩
      · simp at h
    · simp at h
  | stop =>
    simp only [ElicitFilesFrom.step] at h
    split at h
    · simp only [Option.some.injEq] at h
      subst h
      exact ⟨hu, rfl, rfl, rfl⟩
    · simp at h
  | main =>
    simp only [ElicitFilesFrom.step] at h
    split at h
    · split at h
      · simp only [Option.some.injEq] at h
        subst h
        exact ⟨hu, rfl, rfl, rfl⟩
      · simp at h
    · simp only [Option.some.injEq] at h
      subst h
      exact ⟨hu, rfl, rfl, rfl⟩
    · split at h
      · simp at h
      · simp only [Option.some.injEq] at h
        subst h
        exact ⟨hu, rfl, rfl, rfl⟩
    · split at h
      · simp only [Option.some.injEq] at h
        subst h
        exact ⟨hu, rfl, rfl, rfl⟩
      · simp only [Option.some.injEq] at h
        subst h
        exact ⟨hu, rfl, rfl, rfl⟩
    · simp at h

theorem run_of_no_units {ignorer : DirFilter} {fileFilter : FileFilter} {concurrent : Nat} :
    ∀ (sched : List Action) (s s1 : State), s.units = [] →
      run ignorer fileFilter concurrent s sched = some s1 →
      s1.units = [] ∧ s1.wg = s.wg ∧ s1.sent = s.sent ∧ s1.semaphoreChan = s.semaphoreChan
  | [], s, s1, hu, h => by
    simp only [ElicitFilesFrom.run, Option.some.injEq] at h
    subst h
    exact ⟨hu, rfl, rfl, rfl⟩
  | a :: sched, s, s1, hu, h => by
    simp only [ElicitFilesFrom.run] at h
    split at h
    · rename_i s2 hstep
      obtain ⟨h1, h2, h3, h4⟩ := step_of_no_units hu hstep
      obtain ⟨k1, k2, k3, k4⟩ := run_of_no_units sched s2 s1 h1 h
      exact ⟨k1, k2.trans h2, k3.trans h3, k4.trans h4⟩
    · simp at h

theorem units_nil_of_outstanding_zero (s : State) (h : s.outstanding = 0) : s.units = [] := by
  unfold State.outstanding at h
  cases hu : s.units with
  | nil => rfl
  | cons u us =>
    rw [hu] at h
    simp only [List.map_cons, List.sum_cons] at h
    have : 1 ≤ u.outstanding := by cases u <;> simp [Walker.outstanding]
    omega

theorem outstanding_le_sum :
    ∀ (l : List Walker) (i : Nat) (u : Walker), l.get? i = some u →
      u.outstanding ≤ (l.map Walker.outstanding).sum
  | [], i, u, h => by simp at h
  | v :: l, 0, u, h => by
    simp at h
    subst h
    simp
  | v :: l, i + 1, u, h => by
    have := outstanding_le_sum l i u (by simpa using h)
    simp only [List.map_cons, List.sum_cons]
    omega

end ElicitFilesFrom

/-- C7: no lost writes. In every state of every run of `ElicitFilesFrom` the
paths collected in `rvs` followed by those buffered in `fileReadCh` are exactly
the paths sent so far, in order; once `readDone` is closed no traversal unit
is left to send; at the return the buffer is empty, so the slice returned is
the sequence of paths sent and has its length; and with at least one slot the
run can always be continued to the return. -/
theorem no_lost_writes (dir : String) (root : Entry) (ignorer : DirFilter)
    (fileFilter : FileFilter) (concurrent : Nat) (sched : List ElicitFilesFrom.Action)
    (s : ElicitFilesFrom.State)
    (h : ElicitFilesFrom.run ignorer fileFilter concurrent (ElicitFilesFrom.init dir root) sched
      = some s) :
    s.rvs ++ s.fileReadCh = s.sent ∧
      (s.readDone = true → s.units = []) ∧
      (s.main = ElicitFilesFrom.Main.returned →
        s.fileReadCh = [] ∧ s.rvs = s.sent ∧ s.rvs.length = s.sent.length) ∧
      (1 ≤ concurrent → ∃ more s1,
        ElicitFilesFrom.run ignorer fileFilter concurrent s more = some s1 ∧
          s1.main = ElicitFilesFrom.Main.returned ∧ s1.rvs.length = s1.sent.length) := by
  have inv := ElicitFilesFrom.Invariant.of_reachable h
  refine ⟨inv.collected, ?_, ?_, ?_⟩
  · intro hd
    apply inv.waited
    intro hm
    have := inv.closed.2 (Or.inl hm)
    rw [hd] at this
    exact absurd this (by simp)
  · intro hret
    obtain ⟨_, h2, h3, _⟩ := inv.at_return hret
    exact ⟨h2, h3, by rw [h3]⟩
  · intro hN
    obtain ⟨more, s1, hrun, hret⟩ :=
      ElicitFilesFrom.Invariant.completes hN _ s (Nat.le_refl _) inv
    have inv1 := ElicitFilesFrom.Invariant.preserved_run more s s1 inv hrun
    exact ⟨more, s1, hrun, hret, by rw [(inv1.at_return hret).2.2.1]⟩

/-- Witness of C7: the walk of `sampleTree` under `sampleSchedule`, in which
both paths are still buffered when `readDone` is closed. -/
theorem no_lost_writes_witness :
    ElicitFilesFrom.run StdIgnorer AllFiles 2 (ElicitFilesFrom.init "/r" sampleTree)
        sampleSchedule = some sampleReturn ∧
      (sampleReturn.rvs ++ sampleReturn.fileReadCh = sampleReturn.sent ∧
      (sampleReturn.readDone = true → sampleReturn.units = []) ∧
      (sampleReturn.main = ElicitFilesFrom.Main.returned →
        sampleReturn.fileReadCh = [] ∧ sampleReturn.rvs = sampleReturn.sent
          ∧ sampleReturn.rvs.length = sampleReturn.sent.length) ∧
      (1 ≤ 2 → ∃ more s1,
        ElicitFilesFrom.run StdIgnorer AllFiles 2 sampleReturn more = some s1 ∧
          s1.main = ElicitFilesFrom.Main.returned ∧ s1.rvs.length = s1.sent.length)) :=
  ⟨sampleSchedule_run,
    no_lost_writes "/r" sampleTree StdIgnorer AllFiles 2 sampleSchedule sampleReturn
      sampleSchedule_run⟩

/-- C8: the completion tracker. In every state of every run of
`ElicitFilesFrom` the counter of `wg` is not negative and equals the number of
dispatched units that have not finished (a unit that has done `wg.Add(1)` for a
child it has not started yet counts for two, so the counter is at least two
then: the child is counted before its parent can do `wg.Done()`); when the
counter is zero no unit exists, and in every continuation the counter stays
zero, no unit appears and no path is sent; and with at least one slot the run
can be continued to a state where the counter is zero. The counter starts at
one. -/
theorem wg_counts_outstanding_units (dir : String) (root : Entry) (ignorer : DirFilter)
    (fileFilter : FileFilter) (concurrent : Nat) (sched : List ElicitFilesFrom.Action)
    (s : ElicitFilesFrom.State)
    (h : ElicitFilesFrom.run ignorer fileFilter concurrent (ElicitFilesFrom.init dir root) sched
      = some s) :
    (ElicitFilesFrom.init dir root).wg = 1 ∧
      0 ≤ s.wg ∧ s.wg = (s.outstanding : Int) ∧
      (∀ i d child files,
        s.units.get? i = some (ElicitFilesFrom.Walker.spawn d child files) → 2 ≤ s.wg) ∧
      (s.units ≠ [] → 1 ≤ s.wg) ∧
      (s.wg = 0 → s.units = [] ∧
        ∀ more s1, ElicitFilesFrom.run ignorer fileFilter concurrent s more = some s1 →
          s1.wg = 0 ∧ s1.units = [] ∧ s1.sent = s.sent) ∧
      (1 ≤ concurrent → ∃ more s1,
        ElicitFilesFrom.run ignorer fileFilter concurrent s more = some s1 ∧ s1.wg = 0) := by
  have inv := ElicitFilesFrom.Invariant.of_reachable h
  have hc := inv.count
  refine ⟨rfl, by omega, hc, ?_, ?_, ?_, ?_⟩
  · intro i d child files hget
    have := ElicitFilesFrom.outstanding_le_sum s.units i _ hget
    simp only [ElicitFilesFrom.Walker.outstanding] at this
    unfold ElicitFilesFrom.State.outstanding at hc
    omega
  · intro hne
    by_contra hlt
    have h0 : s.outstanding = 0 := by omega
    exact hne (ElicitFilesFrom.units_nil_of_outstanding_zero s h0)
  · intro h0
    have hu : s.units = [] :=
      ElicitFilesFrom.units_nil_of_outstanding_zero s (by omega)
    refine ⟨hu, ?_⟩
    intro more s1 hrun
    obtain ⟨k1, k2, k3, _⟩ := ElicitFilesFrom.run_of_no_units more s s1 hu hrun
    exact ⟨by rw [k2, h0], k1, k3⟩
  · intro hN
    obtain ⟨more, s1, hrun, hret⟩ :=
      ElicitFilesFrom.Invariant.completes hN _ s (Nat.le_refl _) inv
    have inv1 := ElicitFilesFrom.Invariant.preserved_run more s s1 inv hrun
    refine ⟨more, s1, hrun, ?_⟩
    have := inv1.count
    have hu := (inv1.at_return hret).1
    simpa [ElicitFilesFrom.State.outstanding, hu] using this

theorem sampleSchedule_spawning :
    ElicitFilesFrom.run StdIgnorer AllFiles 2 (ElicitFilesFrom.init "/r" sampleTree)
      (sampleSchedule.take 4) = some sampleSpawning := by
  rfl

theorem sampleSchedule_busy :
    ElicitFilesFrom.run StdIgnorer AllFiles 2 (ElicitFilesFrom.init "/r" sampleTree)
      (sampleSchedule.take 7) = some sampleBusy := by
  rfl

/-- Witness of C8: the walk of `sampleTree` after four steps, where the root
unit has counted the unit of `sub` and not started it. -/
theorem wg_counts_outstanding_units_witness :
    ElicitFilesFrom.run StdIgnorer AllFiles 2 (ElicitFilesFrom.init "/r" sampleTree)
        (sampleSchedule.take 4) = some sampleSpawning ∧
      ((ElicitFilesFrom.init "/r" sampleTree).wg = 1 ∧
      0 ≤ sampleSpawning.wg ∧ sampleSpawning.wg = (sampleSpawning.outstanding : Int) ∧
      (∀ i d child files,
        sampleSpawning.units.get? i = some (ElicitFilesFrom.Walker.spawn d child files) →
          2 ≤ sampleSpawning.wg) ∧
      (sampleSpawning.units ≠ [] → 1 ≤ sampleSpawning.wg) ∧
      (sampleSpawning.wg = 0 → sampleSpawning.units = [] ∧
        ∀ more s1, ElicitFilesFrom.run StdIgnorer AllFiles 2 sampleSpawning more = some s1 →
          s1.wg = 0 ∧ s1.units = [] ∧ s1.sent = sampleSpawning.sent) ∧
      (1 ≤ 2 → ∃ more s1,
        ElicitFilesFrom.run StdIgnorer AllFiles 2 sampleSpawning more = some s1 ∧ s1.wg = 0)) :=
  ⟨sampleSchedule_spawning,
    wg_counts_outstanding_units "/r" sampleTree StdIgnorer AllFiles 2 (sampleSchedule.take 4)
      sampleSpawning sampleSchedule_spawning⟩

/-- C9: bounded concurrency. In every state of every run of `ElicitFilesFrom`
the traversal units that hold a slot (they have sent on `semaphoreChan` and not
yet received from it) are as many as the elements of `semaphoreChan`, at most
its capacity `concurrent`; a unit waiting for a slot is admitted exactly when
fewer than `concurrent` slots are held, and only a unit holding a slot lists;
a unit at its deferred receive, reached after the loop or after a listing
failure, is never blocked and gives back exactly one slot; at the return no
slot is held. -/
theorem semaphore_bounds_listing (dir : String) (root : Entry) (ignorer : DirFilter)
    (fileFilter : FileFilter) (concurrent : Nat) (sched : List ElicitFilesFrom.Action)
    (s : ElicitFilesFrom.State)
    (h : ElicitFilesFrom.run ignorer fileFilter concurrent (ElicitFilesFrom.init dir root) sched
      = some s) :
    s.holders = s.semaphoreChan ∧ s.holders ≤ concurrent ∧
      (∀ i d node, s.units.get? i = some (ElicitFilesFrom.Walker.acquire d node) →
        ((ElicitFilesFrom.stepWalker ignorer fileFilter concurrent s i).isSome = true
          ↔ s.holders < concurrent)) ∧
      (∀ i d node, s.units.get? i = some (ElicitFilesFrom.Walker.listing d node) →
        1 ≤ s.semaphoreChan ∧
        ∃ s1, ElicitFilesFrom.stepWalker ignorer fileFilter concurrent s i = some s1 ∧
          s1.semaphoreChan = s.semaphoreChan ∧
          ((∀ n files, node ≠ Entry.dir n true files) →
            s1.units.get? i = some ElicitFilesFrom.Walker.release)) ∧
      (∀ i, s.units.get? i = some ElicitFilesFrom.Walker.release →
        ∃ s1, ElicitFilesFrom.stepWalker ignorer fileFilter concurrent s i = some s1 ∧
          s1.semaphoreChan + 1 = s.semaphoreChan ∧
          s1.units.get? i = some ElicitFilesFrom.Walker.done) ∧
      (s.main = ElicitFilesFrom.Main.returned → s.semaphoreChan = 0) := by
  have inv := ElicitFilesFrom.Invariant.of_reachable h
  have hs := inv.slots
  refine ⟨hs.symm, by rw [← hs]; exact inv.bound, ?_, ?_, ?_, ?_⟩
  · intro i d node hget
    simp only [ElicitFilesFrom.stepWalker, hget, ← hs]
    by_cases hlt : s.semaphoreChan < concurrent <;> simp [hlt]
  · intro i d node hget
    have hle := ElicitFilesFrom.slot_le_sum s.units i _ hget
    simp only [ElicitFilesFrom.Walker.slots] at hle
    have hi : i < s.units.length := by
      rcases Nat.lt_or_ge i s.units.length with hlt | hge
      · exact hlt
      · rw [List.get?_eq_none.2 hge] at hget
        simp at hget
    refine ⟨by unfold ElicitFilesFrom.State.holders at hs; omega, ?_⟩
    simp only [ElicitFilesFrom.stepWalker, hget]
    split
    · rename_i n files
      exact ⟨_, rfl, rfl, fun hno => absurd rfl (hno n files)⟩
    · exact ⟨_, rfl, rfl, fun _ => by simp [hi]⟩
  · intro i hget
    have hle := ElicitFilesFrom.slot_le_sum s.units i _ hget
    simp only [ElicitFilesFrom.Walker.slots] at hle
    unfold ElicitFilesFrom.State.holders at hs
    have hpos : 0 < s.semaphoreChan := by omega
    have hi : i < s.units.length := by
      rcases Nat.lt_or_ge i s.units.length with hlt | hge
      · exact hlt
      · rw [List.get?_eq_none.2 hge] at hget
        simp at hget
    simp only [ElicitFilesFrom.stepWalker, hget, hpos, if_true]
    refine ⟨_, rfl, ?_, ?_⟩
    · simp only
      omega
    · simp [hi]
  · intro hret
    have hu := (inv.at_return hret).1
    simpa [ElicitFilesFrom.State.holders, hu] using hs

/-- Witness of C9: the walk of `sampleTree` with two slots after seven steps,
where the root unit and the unit of `sub` hold both slots. -/
theorem semaphore_bounds_listing_witness :
    ElicitFilesFrom.run StdIgnorer AllFiles 2 (ElicitFilesFrom.init "/r" sampleTree)
        (sampleSchedule.take 7) = some sampleBusy ∧
      (sampleBusy.holders = sampleBusy.semaphoreChan ∧ sampleBusy.holders ≤ 2 ∧
      (∀ i d node, sampleBusy.units.get? i = some (ElicitFilesFrom.Walker.acquire d node) →
        ((ElicitFilesFrom.stepWalker StdIgnorer AllFiles 2 sampleBusy i).isSome = true
          ↔ sampleBusy.holders < 2)) ∧
      (∀ i d node, sampleBusy.units.get? i = some (ElicitFilesFrom.Walker.listing d node) →
        1 ≤ sampleBusy.semaphoreChan ∧
        ∃ s1, ElicitFilesFrom.stepWalker StdIgnorer AllFiles 2 sampleBusy i = some s1 ∧
          s1.semaphoreChan = sampleBusy.semaphoreChan ∧
          ((∀ n files, node ≠ Entry.dir n true files) →
            s1.units.get? i = some ElicitFilesFrom.Walker.release)) ∧
      (∀ i, sampleBusy.units.get? i = some ElicitFilesFrom.Walker.release →
        ∃ s1, ElicitFilesFrom.stepWalker StdIgnorer AllFiles 2 sampleBusy i = some s1 ∧
          s1.semaphoreChan + 1 = sampleBusy.semaphoreChan ∧
          s1.units.get? i = some ElicitFilesFrom.Walker.done) ∧
      (sampleBusy.main = ElicitFilesFrom.Main.returned → sampleBusy.semaphoreChan = 0)) :=
  ⟨sampleSchedule_busy,
    semaphore_bounds_listing "/r" sampleTree StdIgnorer AllFiles 2 (sampleSchedule.take 7)
      sampleBusy sampleSchedule_busy⟩

/-- Listing failures are absorbed. For a listable root and at least one slot,
whatever subdirectories fail to open or list: every run of `ElicitFilesFrom`
is finite (its length is bounded by the budget of the initial state), never
has a negative counter, is never stuck before the return and can always be
continued to the return, where the counter of `wg` is zero and no slot is
held; so the call returns, and whatever it returns holds a path exactly when
it is the path of a file whose directories below the root are all listable
and not ignored and that the filter accepts as `walkSub` consults it (on the
base name, line 248); in particular it holds every such file that the filter
accepts on its path, when the filter gives its base name the same answer. -/
theorem listing_failure_absorbed (dir n : String) (es : List Entry) (ignorer : DirFilter)
    (fileFilter : FileFilter) (concurrent : Nat) (hN : 1 ≤ concurrent) :
    (∀ sched s,
      ElicitFilesFrom.run ignorer fileFilter concurrent
        (ElicitFilesFrom.init dir (Entry.dir n true es)) sched = some s →
      sched.length ≤ (ElicitFilesFrom.init dir (Entry.dir n true es)).budget ∧
      0 ≤ s.wg ∧
      (s.main ≠ ElicitFilesFrom.Main.returned →
        ∃ a s1, ElicitFilesFrom.step ignorer fileFilter concurrent s a = some s1) ∧
      (∃ more s1, ElicitFilesFrom.run ignorer fileFilter concurrent s more = some s1 ∧
        s1.main = ElicitFilesFrom.Main.returned) ∧
      (s.main = ElicitFilesFrom.Main.returned → s.wg = 0 ∧ s.semaphoreChan = 0)) ∧
    (∃ rvs, ElicitFilesFrom dir (Entry.dir n true es) ignorer fileFilter concurrent rvs) ∧
    (∀ rvs, ElicitFilesFrom dir (Entry.dir n true es) ignorer fileFilter concurrent rvs →
      (∀ p, p ∈ rvs ↔ ∃ name, Visible ignorer dir es name p ∧ fileFilter name = true) ∧
      (∀ name p, Visible ignorer dir es name p → fileFilter name = fileFilter p →
        fileFilter p = true → p ∈ rvs)) := by
  refine ⟨?_, ElicitFilesFrom_returns dir _ ignorer fileFilter hN, ?_⟩
  · intro sched s h
    have inv := ElicitFilesFrom.Invariant.of_reachable h
    have hb := ElicitFilesFrom.budget_run sched _ s h
    have hc := inv.count
    refine ⟨by omega, by omega, fun hm => inv.progress hN hm,
      ElicitFilesFrom.Invariant.completes hN _ s (Nat.le_refl _) inv, ?_⟩
    intro hret
    have hu := (inv.at_return hret).1
    have hs := inv.slots
    constructor
    · simpa [ElicitFilesFrom.State.outstanding, hu] using hc
    · simpa [ElicitFilesFrom.State.holders, hu] using hs
  · intro rvs h
    refine ⟨fun p => mem_ElicitFilesFrom_iff h p, ?_⟩
    intro name p hv hagree hp
    exact (mem_ElicitFilesFrom_iff h p).2 ⟨name, hv, by rw [hagree]; exact hp⟩

/-- The absorption of listing failures in the walk of `sampleTree`, whose
directory `bad` cannot be listed, with two slots. -/
theorem listing_failure_absorbed_witness :
    1 ≤ 2 ∧
    ((∀ sched s,
      ElicitFilesFrom.run StdIgnorer AllFiles 2 (ElicitFilesFrom.init "/r" sampleTree) sched
        = some s →
      sched.length ≤ (ElicitFilesFrom.init "/r" sampleTree).budget ∧
      0 ≤ s.wg ∧
      (s.main ≠ ElicitFilesFrom.Main.returned →
        ∃ a s1, ElicitFilesFrom.step StdIgnorer AllFiles 2 s a = some s1) ∧
      (∃ more s1, ElicitFilesFrom.run StdIgnorer AllFiles 2 s more = some s1 ∧
        s1.main = ElicitFilesFrom.Main.returned) ∧
      (s.main = ElicitFilesFrom.Main.returned → s.wg = 0 ∧ s.semaphoreChan = 0)) ∧
    (∃ rvs, ElicitFilesFrom "/r" sampleTree StdIgnorer AllFiles 2 rvs) ∧
    (∀ rvs, ElicitFilesFrom "/r" sampleTree StdIgnorer AllFiles 2 rvs →
      (∀ p, p ∈ rvs ↔ ∃ name, Visible StdIgnorer "/r"
        [Entry.file "a.txt", Entry.dir "sub" true [Entry.file "b.txt"],
          Entry.dir "bad" false [Entry.file "c.txt"],
          Entry.dir ".git" true [Entry.file "config"]] name p ∧ AllFiles name = true) ∧
      (∀ name p, Visible StdIgnorer "/r"
        [Entry.file "a.txt", Entry.dir "sub" true [Entry.file "b.txt"],
          Entry.dir "bad" false [Entry.file "c.txt"],
          Entry.dir ".git" true [Entry.file "config"]] name p →
        AllFiles name = AllFiles p → AllFiles p = true → p ∈ rvs))) :=
  ⟨by decide,
    listing_failure_absorbed "/r" "r"
      [Entry.file "a.txt", Entry.dir "sub" true [Entry.file "b.txt"],
        Entry.dir "bad" false [Entry.file "c.txt"],
        Entry.dir ".git" true [Entry.file "config"]] StdIgnorer AllFiles 2 (by decide)⟩


/-- C3: `walkSub` hands the file filter the base name (`f.Name()`, line 248),
not the path it sends. In a root `/r` holding `a.txt`, with a filter that
accepts the paths below `/r/`, the filter accepts the path `/r/a.txt`, the
sequential walker returns it, and the concurrent walker returns nothing. -/
theorem walkSub_filters_base_name :
    underR "/r/a.txt" = true ∧ underR "a.txt" = false ∧
      Visible StdIgnorer "/r" [Entry.file "a.txt"] "a.txt" "/r/a.txt" ∧
      ElicitFilesFrom0 "/r" (Entry.dir "r" true [Entry.file "a.txt"]) StdIgnorer underR
        = ["/r/a.txt"] ∧
      (∃ rvs, ElicitFilesFrom "/r" (Entry.dir "r" true [Entry.file "a.txt"]) StdIgnorer
        underR 2 rvs) ∧
      (∀ rvs, ElicitFilesFrom "/r" (Entry.dir "r" true [Entry.file "a.txt"]) StdIgnorer
        underR 2 rvs → rvs = []) := by
  refine ⟨by decide, by decide, ?_, by decide, ElicitFilesFrom_returns _ _ _ _ (by decide), ?_⟩
  · exact Visible.file (by simp)
  · intro rvs h
    have hp := ElicitFilesFrom_perm h
    have hs : walkSub.sends StdIgnorer underR "/r" (Entry.dir "r" true [Entry.file "a.txt"])
        = [] := by decide
    rw [hs] at hp
    exact hp.eq_nil

/-- C5: `ElicitFilesFrom0` does hand the root to the ignore predicate, under the
empty name: `strings.Split("", "/")` has length one, so the guard
`len(rls) > 0` holds at the root. With a filter that ignores every name it
returns nothing, for every tree and file filter, while the concurrent walker
returns the included file `a.txt` of the root `/r`. -/
theorem ElicitFilesFrom0_checks_root :
    Split (TrimPrefix (TrimPrefix "/r" "/r") "/") = [""] ∧
      (∀ (dir n : String) (ok : Bool) (es : List Entry) (fileFilter : FileFilter),
        ElicitFilesFrom0 dir (Entry.dir n ok es) ignoreAll fileFilter = []) ∧
      ElicitFilesFrom0 "/r" (Entry.dir "r" true [Entry.file "a.txt"]) ignoreAll AllFiles = [] ∧
      AllFiles "/r/a.txt" = true ∧ AllFiles "a.txt" = true ∧
      (∃ rvs, ElicitFilesFrom "/r" (Entry.dir "r" true [Entry.file "a.txt"]) ignoreAll
        AllFiles 2 rvs) ∧
      (∀ rvs, ElicitFilesFrom "/r" (Entry.dir "r" true [Entry.file "a.txt"]) ignoreAll
        AllFiles 2 rvs → rvs = ["/r/a.txt"]) := by
  refine ⟨by decide, ?_, by decide, rfl, rfl, ElicitFilesFrom_returns _ _ _ _ (by decide), ?_⟩
  · intro dir n ok es fileFilter
    exact ElicitFilesFrom0_ignored dir n ok es ignoreAll fileFilter rfl
  · intro rvs h
    have hp := ElicitFilesFrom_perm h
    have hs : walkSub.sends ignoreAll AllFiles "/r" (Entry.dir "r" true [Entry.file "a.txt"])
        = ["/r/a.txt"] := by decide
    rw [hs] at hp
    exact List.perm_singleton.1 hp

/-- C1: the two walkers do not return the same set on every tree. In the root
`/r` holding the directory `aaa`, which cannot be listed, and the file `b.txt`,
the callback of `ElicitFilesFrom0` returns the listing error, `filepath.Walk`
stops at `aaa` and the slice returned is empty, while `ElicitFilesFrom`
absorbs the failure and returns `/r/b.txt`: after sorting the two results have
different lengths, which `testCompare` reports as "not the same". -/
theorem walkers_differ_on_unlistable :
    ElicitFilesFrom0 "/r" unlistableTree StdIgnorer AllFiles = [] ∧
      (∃ rvs, ElicitFilesFrom "/r" unlistableTree StdIgnorer AllFiles 2 rvs) ∧
      (∀ rvs, ElicitFilesFrom "/r" unlistableTree StdIgnorer AllFiles 2 rvs →
        rvs = ["/r/b.txt"] ∧
          ¬ rvs.Perm (ElicitFilesFrom0 "/r" unlistableTree StdIgnorer AllFiles)) := by
  have h0 : ElicitFilesFrom0 "/r" unlistableTree StdIgnorer AllFiles = [] := by decide
  refine ⟨h0, ElicitFilesFrom_returns _ _ _ _ (by decide), ?_⟩
  intro rvs h
  have hp := ElicitFilesFrom_perm h
  have hs : walkSub.sends StdIgnorer AllFiles "/r" unlistableTree = ["/r/b.txt"] := by decide
  rw [hs] at hp
  have hr := List.perm_singleton.1 hp
  refine ⟨hr, ?_⟩
  rw [h0, hr]
  intro hperm
  exact absurd hperm.eq_nil (by simp)

/-- Where the walkers do agree: on a directory root (no symbolic link) with
valid names in which every directory can be listed, with a directory filter
that does not ignore the empty name and a file filter that gives the base name
and the path of every reachable file the same answer, `ElicitFilesFrom`
returns, and whatever it returns is a permutation of what `ElicitFilesFrom0`
returns. -/
theorem walkers_agree (dir n : String) (es : List Entry) (ignorer : DirFilter)
    (fileFilter : FileFilter) (concurrent : Nat) (hN : 1 ≤ concurrent)
    (hvalid : Entry.namesValidList es = true) (hlist : Entry.listableList es = true)
    (hroot : ignorer "" = false)
    (hagree : ∀ name p, Visible ignorer dir es name p → fileFilter name = fileFilter p) :
    (∃ rvs, ElicitFilesFrom dir (Entry.dir n true es) ignorer fileFilter concurrent rvs) ∧
      ∀ rvs, ElicitFilesFrom dir (Entry.dir n true es) ignorer fileFilter concurrent rvs →
        rvs.Perm (ElicitFilesFrom0 dir (Entry.dir n true es) ignorer fileFilter) ∧
          rvs.length = (ElicitFilesFrom0 dir (Entry.dir n true es) ignorer fileFilter).length := by
  refine ⟨ElicitFilesFrom_returns dir _ ignorer fileFilter hN, ?_⟩
  intro rvs h
  have h1 := ElicitFilesFrom_perm h
  have h0 := ElicitFilesFrom0_perm dir n es ignorer fileFilter hroot hvalid hlist
  have hs : walkSub.sends ignorer fileFilter dir (Entry.dir n true es)
      = ((visibleFilesIn ignorer dir es).filter (fun x => fileFilter x.2)).map Prod.snd := by
    simp only [walkSub.sends, if_true]
    rw [loopSends_eq]
    congr 1
    apply List.filter_congr
    intro x hx
    exact hagree x.1 x.2 (visible_of_mem ignorer es dir x hx)
  rw [hs] at h1
  have hperm := h1.trans h0.symm
  exact ⟨hperm, hperm.length_eq⟩

/-- The agreement of the walkers on the tree of the scenario, in which every
directory can be listed, with `StdIgnorer` and `AllFiles`. -/
theorem walkers_agree_witness :
    (1 ≤ 2 ∧ scenarioTree = Entry.dir "root" true
        [Entry.file "a.txt", Entry.dir "sub" true [Entry.file "b.txt"],
          Entry.dir ".git" true [Entry.file "config"]]) ∧
    ((∃ rvs, ElicitFilesFrom "/root" scenarioTree StdIgnorer AllFiles 2 rvs) ∧
      ∀ rvs, ElicitFilesFrom "/root" scenarioTree StdIgnorer AllFiles 2 rvs →
        rvs.Perm (ElicitFilesFrom0 "/root" scenarioTree StdIgnorer AllFiles) ∧
          rvs.length = (ElicitFilesFrom0 "/root" scenarioTree StdIgnorer AllFiles).length) :=
  ⟨⟨by decide, rfl⟩,
    walkers_agree "/root" "root"
      [Entry.file "a.txt", Entry.dir "sub" true [Entry.file "b.txt"],
        Entry.dir ".git" true [Entry.file "config"]] StdIgnorer AllFiles 2
      (by decide) (by decide) (by decide) (by decide) (fun _ _ _ => rfl)⟩


theorem ElicitFilesFrom0_file (dir n : String) (ignorer : DirFilter)
    (fileFilter : FileFilter) :
    ElicitFilesFrom0 dir (Entry.file n) ignorer fileFilter
      = if fileFilter dir then [dir] else [] := by
  simp only [ElicitFilesFrom0, Entry.sorted, filepath.walk]
  rw [walkFn_file]
  simp

theorem dirComponents_root (dir : String) : dirComponents dir dir = [] := by
  unfold dirComponents
  rw [Split_root]
  rfl

/-- Counterexample to C2: the root of a walk is never checked by name. With the
root `/w/.git` holding `config`, both walkers with `StdIgnorer` return
`/w/.git/config`, a path that lies under a directory whose base name is
`.git`. -/
theorem root_named_git_is_walked :
    ElicitFilesFrom0 "/w/.git" gitRoot StdIgnorer AllFiles = ["/w/.git/config"] ∧
      (∃ rvs, ElicitFilesFrom "/w/.git" gitRoot StdIgnorer AllFiles 2 rvs) ∧
      (∀ rvs, ElicitFilesFrom "/w/.git" gitRoot StdIgnorer AllFiles 2 rvs →
        rvs = ["/w/.git/config"]) ∧
      ".git" ∈ (Split "/w/.git/config").dropLast ∧
      StdIgnorer ".git" = true := by
  refine ⟨by decide, ElicitFilesFrom_returns _ _ _ _ (by decide), ?_, by decide, by decide⟩
  intro rvs h
  have hp := ElicitFilesFrom_perm h
  have hs : walkSub.sends StdIgnorer AllFiles "/w/.git" gitRoot = ["/w/.git/config"] := by
    decide
  rw [hs] at hp
  exact List.perm_singleton.1 hp

/-- C2, amended: on a tree with valid names, walking with `StdIgnorer`, no path
returned by `ElicitFilesFrom0` or by `ElicitFilesFrom` has `.git` among its
directory components below the root (the root itself, checked by neither
walker under its name, and what lies above it apart), whether the root path
is the directory or a symbolic link to it; `ElicitFilesFrom` returns; a file
whose directories below a listable root are all listable and not named `.git`,
and whose base name and path the filter both accepts, is returned by
`ElicitFilesFrom`, and by `ElicitFilesFrom0` when the root path is no symbolic
link and no directory of the tree fails to list; and in the scenario of the
specification (`a.txt`, `sub/b.txt`, `.git/config`, `AllFiles`) both walkers
return exactly `/root/a.txt` and `/root/sub/b.txt`. -/
theorem StdIgnorer_skips_git (dir n : String) (ok link : Bool) (es : List Entry)
    (fileFilter : FileFilter) (concurrent : Nat) (hN : 1 ≤ concurrent)
    (hvalid : Entry.namesValidList es = true) :
    (∀ p ∈ ElicitFilesFrom0 dir (lstatRoot link (Entry.dir n ok es)) StdIgnorer fileFilter,
      ".git" ∉ dirComponents dir p) ∧
    (∃ rvs, ElicitFilesFrom dir (Entry.dir n ok es) StdIgnorer fileFilter concurrent rvs) ∧
    (∀ rvs, ElicitFilesFrom dir (Entry.dir n ok es) StdIgnorer fileFilter concurrent rvs →
      ∀ p ∈ rvs, ".git" ∉ dirComponents dir p) ∧
    (∀ name p, Visible StdIgnorer dir es name p → ok = true →
      fileFilter name = true → fileFilter p = true →
      (link = false → Entry.listableList es = true →
        p ∈ ElicitFilesFrom0 dir (lstatRoot link (Entry.dir n ok es)) StdIgnorer fileFilter) ∧
      (∀ rvs, ElicitFilesFrom dir (Entry.dir n ok es) StdIgnorer fileFilter concurrent rvs →
        p ∈ rvs)) ∧
    ElicitFilesFrom0 "/root" scenarioTree StdIgnorer AllFiles
      = ["/root/a.txt", "/root/sub/b.txt"] ∧
    (∀ rvs, ElicitFilesFrom "/root" scenarioTree StdIgnorer AllFiles concurrent rvs →
      rvs.Perm ["/root/a.txt", "/root/sub/b.txt"]) := by
  have hgit : ∀ {name p : String}, Visible StdIgnorer dir es name p →
      ".git" ∉ dirComponents dir p := by
    intro name p hv hmem
    have := hv.dirComponents_not_ignored hvalid ".git" hmem
    exact absurd this (by decide)
  refine ⟨?_, ElicitFilesFrom_returns dir _ StdIgnorer fileFilter hN, ?_, ?_, by decide, ?_⟩
  · intro p hp
    cases link with
    | true =>
      simp only [lstatRoot, if_true, ElicitFilesFrom0_file] at hp
      by_cases hf : fileFilter dir = true
      · simp only [hf, if_true, List.mem_singleton] at hp
        rw [hp, dirComponents_root]
        simp
      · simp [hf] at hp
    | false =>
      simp only [lstatRoot, Bool.false_eq_true, if_false] at hp
      obtain ⟨name, hv, _⟩ :=
        ElicitFilesFrom0_sound dir n ok es StdIgnorer fileFilter hvalid p hp
      exact hgit hv
  · intro rvs h p hp
    have hmem := (ElicitFilesFrom_perm h).subset hp
    cases ok with
    | false => simp [walkSub.sends] at hmem
    | true =>
      simp only [walkSub.sends, if_true] at hmem
      obtain ⟨name, hv, _⟩ := (mem_loopSends_iff StdIgnorer fileFilter dir es p).1 hmem
      exact hgit hv
  · intro name p hv hok hname hpath
    subst hok
    constructor
    · intro hlink hlist
      subst hlink
      simp only [lstatRoot, Bool.false_eq_true, if_false]
      have h0 := ElicitFilesFrom0_perm dir n es StdIgnorer fileFilter (by decide) hvalid hlist
      apply h0.symm.subset
      exact List.mem_map.2 ⟨(name, p), List.mem_filter.2 ⟨mem_of_visible hv, hpath⟩, rfl⟩
    · intro rvs h
      exact (mem_ElicitFilesFrom_iff h p).2 ⟨name, hv, hname⟩
  · intro rvs h
    have hp := ElicitFilesFrom_perm h
    have hs : walkSub.sends StdIgnorer AllFiles "/root" scenarioTree
        = ["/root/a.txt", "/root/sub/b.txt"] := by decide
    rwa [hs] at hp

/-- Witness of C2, amended: the tree of the scenario at `/root`, a directory and
no symbolic link, with `AllFiles` and two slots. -/
theorem StdIgnorer_skips_git_witness :
    (1 ≤ 2 ∧ Entry.namesValidList
      [Entry.file "a.txt", Entry.dir "sub" true [Entry.file "b.txt"],
        Entry.dir ".git" true [Entry.file "config"]] = true) ∧
    ((∀ p ∈ ElicitFilesFrom0 "/root" (lstatRoot false scenarioTree) StdIgnorer AllFiles,
      ".git" ∉ dirComponents "/root" p) ∧
    (∃ rvs, ElicitFilesFrom "/root" scenarioTree StdIgnorer AllFiles 2 rvs) ∧
    (∀ rvs, ElicitFilesFrom "/root" scenarioTree StdIgnorer AllFiles 2 rvs →
      ∀ p ∈ rvs, ".git" ∉ dirComponents "/root" p) ∧
    (∀ name p, Visible StdIgnorer "/root"
        [Entry.file "a.txt", Entry.dir "sub" true [Entry.file "b.txt"],
          Entry.dir ".git" true [Entry.file "config"]] name p → true = true →
      AllFiles name = true → AllFiles p = true →
      (false = false → Entry.listableList
        [Entry.file "a.txt", Entry.dir "sub" true [Entry.file "b.txt"],
          Entry.dir ".git" true [Entry.file "config"]] = true →
        p ∈ ElicitFilesFrom0 "/root" (lstatRoot false scenarioTree) StdIgnorer AllFiles) ∧
      (∀ rvs, ElicitFilesFrom "/root" scenarioTree StdIgnorer AllFiles 2 rvs → p ∈ rvs)) ∧
    ElicitFilesFrom0 "/root" scenarioTree StdIgnorer AllFiles
      = ["/root/a.txt", "/root/sub/b.txt"] ∧
    (∀ rvs, ElicitFilesFrom "/root" scenarioTree StdIgnorer AllFiles 2 rvs →
      rvs.Perm ["/root/a.txt", "/root/sub/b.txt"])) :=
  ⟨⟨by decide, by decide⟩,
    StdIgnorer_skips_git "/root" "root" true false
      [Entry.file "a.txt", Entry.dir "sub" true [Entry.file "b.txt"],
        Entry.dir ".git" true [Entry.file "config"]] AllFiles 2 (by decide) (by decide)⟩

/-- C6: the result of `ElicitFilesFrom` does not hold every included file of the
accessible subtrees. In the root `/r` holding `a.txt` and the unlistable
directory `bad`, with a filter that accepts the paths below `/r/`, the call
returns (the failure of `bad` is absorbed), the file `a.txt` lies in the
listable root and the filter accepts its path `/r/a.txt`, yet the slice
returned is empty: `walkSub` asks the filter about the base name `a.txt`.
The sequential walker returns `/r/a.txt` at the same input. -/
theorem ElicitFilesFrom_misses_included_file :
    underR "/r/a.txt" = true ∧
      Visible StdIgnorer "/r" [Entry.file "a.txt", Entry.dir "bad" false []]
        "a.txt" "/r/a.txt" ∧
      (∃ rvs, ElicitFilesFrom "/r" partlyListable StdIgnorer underR 2 rvs) ∧
      (∀ rvs, ElicitFilesFrom "/r" partlyListable StdIgnorer underR 2 rvs →
        rvs = [] ∧ "/r/a.txt" ∉ rvs) ∧
      ElicitFilesFrom0 "/r" partlyListable StdIgnorer underR = ["/r/a.txt"] := by
  refine ⟨by decide, Visible.file (by simp),
    ElicitFilesFrom_returns _ _ _ _ (by decide), ?_, by decide⟩
  intro rvs h
  have hp := ElicitFilesFrom_perm h
  have hs : walkSub.sends StdIgnorer underR "/r" partlyListable = [] := by decide
  rw [hs] at hp
  have hr := hp.eq_nil
  exact ⟨hr, by rw [hr]; simp⟩


end Dutil
